import Mathlib

/-!
Verification of the graph-unfolding programs `unfolding_final.py` (explicit-label
delta policy) and `unfolding_final_1.py` (constraint-flag delta policy).

The Python code is shallowly embedded: an attributed digraph is a list of nodes
(name and attribute map) and a list of edges (source, destination, attribute map),
with `networkx.DiGraph` add-node/add-edge semantics (adding an existing node or
edge merges attribute maps instead of duplicating the entry).  The unfolding
factor `k` is a Python number, either an `int` or a `float`, so that the guard
`k < 1 or not isinstance(k, int)` is expressible.  Fallible code returns
`Except Err`.
-/

set_option maxHeartbeats 1000000

/-- Attribute map: a Python dict from attribute names to string values,
represented as an association list in insertion order. -/
abbrev AttrMap := List (String × String)

/-- An edge of an attributed digraph. -/
structure Edge where
  src : String
  dst : String
  attrs : AttrMap
  deriving Repr, DecidableEq

/-- An attributed digraph: nodes with attribute maps, edges with attribute maps. -/
structure Graph where
  nodes : List (String × AttrMap)
  edges : List Edge
  deriving Repr, DecidableEq

/-- The error taxonomy of the spec, mapped from the `ValueError`s and the
`AssertionError` raised by the source. -/
inductive Err where
  | configurationError
  | invalidLabelError
  | negativeDeltaError
  | invariantViolationError
  deriving Repr, DecidableEq

/-- A Python number argument: `int n`, or `float q` (a non-`int` numeric value).
`isinstance(k, int)` holds exactly for the first constructor. -/
inductive PyNum where
  | int (n : Int)
  | float (q : Rat)
  deriving Repr, DecidableEq

/-- The Python comparison `k < 1`. -/
def PyNum.lt1 : PyNum → Bool
  | .int n => n < 1
  | .float q => q < 1

/-- The Python check `isinstance(k, int)`. -/
def PyNum.isInstInt : PyNum → Bool
  | .int _ => true
  | .float _ => false

/-- The value of a `PyNum` known to be a non-negative `int`, as a natural number. -/
def PyNum.toNatVal : PyNum → Nat
  | .int n => n.toNat
  | .float _ => 0

/-- Python `dict` assignment `m[key] = v`: replace in place if the key is
present, otherwise append at the end. -/
def setAttr (m : AttrMap) (key v : String) : AttrMap :=
  if m.any (fun p => p.1 == key) then
    m.map (fun p => if p.1 = key then (p.1, v) else p)
  else m ++ [(key, v)]

/-- Python `del m[key]` (on dicts with unique keys this removes the single
entry for `key`). -/
def delAttr (m : AttrMap) (key : String) : AttrMap :=
  m.filter (fun p => !(p.1 == key))

/-- Python `dict.update`: fold the new entries into the old map. -/
def updateAttrs (old new : AttrMap) : AttrMap :=
  new.foldl (fun m kv => setAttr m kv.1 kv.2) old

/-- `networkx` `add_node(name, **attrs)`: if the node exists its attribute map
is updated, otherwise the node is appended. -/
def addNodeAttrs (ns : List (String × AttrMap)) (nm : String) (attrs : AttrMap) :
    List (String × AttrMap) :=
  if ns.any (fun p => p.1 == nm) then
    ns.map (fun p => if p.1 = nm then (p.1, updateAttrs p.2 attrs) else p)
  else ns ++ [(nm, attrs)]

/-- `networkx` `add_edge` implicitly inserting a missing endpoint node with an
empty attribute map; existing nodes are untouched. -/
def ensureNode (ns : List (String × AttrMap)) (nm : String) : List (String × AttrMap) :=
  if ns.any (fun p => p.1 == nm) then ns else ns ++ [(nm, ([] : AttrMap))]

/-- `networkx` `add_edge(src, dst, **attrs)` on the edge list: if the edge
exists its attribute map is updated, otherwise the edge is appended. -/
def addEdge (es : List Edge) (s d : String) (attrs : AttrMap) : List Edge :=
  if es.any (fun e => e.src == s && e.dst == d) then
    es.map (fun e => if e.src = s ∧ e.dst = d then
      { e with attrs := updateAttrs e.attrs attrs } else e)
  else es ++ [⟨s, d, attrs⟩]

/-- One emitted edge instance: source node name, destination node name,
attribute map; the payload of one `add_edge` call. -/
structure Triple where
  src : String
  dst : String
  attrs : AttrMap
  deriving Repr, DecidableEq

/-- Apply one `add_edge(src, dst, **attrs)` call to a graph under construction:
missing endpoints are inserted as bare nodes, then the edge is added. -/
def applyTriple (g : Graph) (t : Triple) : Graph :=
  { nodes := ensureNode (ensureNode g.nodes t.src) t.dst
    edges := addEdge g.edges t.src t.dst t.attrs }

instance {ε α : Type} [DecidableEq ε] [DecidableEq α] : DecidableEq (Except ε α)
  | .error e, .error f => decidable_of_iff (e = f) (by simp)
  | .error _, .ok _ => isFalse (by simp)
  | .ok _, .error _ => isFalse (by simp)
  | .ok a, .ok b => decidable_of_iff (a = b) (by simp)

/-- Effect-ordered `map` over `Except`: stops at the first error, mirroring a
Python loop that raises on the first offending element. -/
def mapExcept (f : α → Except Err β) : List α → Except Err (List β)
  | [] => .ok []
  | a :: as =>
    match f a with
    | .error e => .error e
    | .ok b =>
      match mapExcept f as with
      | .error e => .error e
      | .ok bs => .ok (b :: bs)

/-! ### String helpers from the source -/

/-- Python `s.strip(CHARS)` on a character list: remove every leading and
trailing character satisfying `p`. -/
def stripEnds (p : Char → Bool) (l : List Char) : List Char :=
  ((l.dropWhile p).reverse.dropWhile p).reverse

/-- Python `s.strip('"')` on the character list: remove every leading and
trailing `'"'` character. -/
def stripChars (a : Char) (l : List Char) : List Char :=
  stripEnds (fun c => c == a) l

/-- Python `s.strip('"')`. -/
def stripQuotes (s : String) : String :=
  (stripChars '"' s.data).asString

/-- Python `s.replace('"', '')`: remove every `'"'` character. -/
def removeQuotes (s : String) : String :=
  (s.data.filter (fun c => !(c == '"'))).asString

/-- Python `s.split('_')` on a character list: split at every underscore;
adjacent separators and boundary separators produce empty parts. -/
def splitUnderscore : List Char → List (List Char)
  | [] => [[]]
  | c :: rest =>
    let r := splitUnderscore rest
    if c == '_' then [] :: r
    else (c :: r.headD []) :: r.tail

/-- The quote-normalization step of `unfolding_final_1.py` line 60-61:
`cleaned = str(label).replace('"', ''); label = f'"TEXT"'` with the cleaned
text re-wrapped in one pair of double quotes. -/
def quoteNormalize (s : String) : String :=
  "\"" ++ removeQuotes s ++ "\""

/-- The quote-normalization step of `unfolding_final.py` line 98-99 (output
stage): `label = str(v).strip('"')`, then written as `label="TEXT"`. -/
def quoteNormalizeStrip (s : String) : String :=
  "\"" ++ stripQuotes s ++ "\""

/-- Value of a list of decimal digit characters (most significant first). -/
def digitsVal (l : List Char) : Nat :=
  l.foldl (fun a c => 10 * a + (c.toNat - 48)) 0

/-- Python `str.isdigit()` (ASCII fragment): nonempty and all characters
decimal digits. -/
def pyIsDigit (l : List Char) : Bool :=
  !l.isEmpty && l.all Char.isDigit

/-- Python `int(s)`: optional surrounding whitespace, optional sign, then a
nonempty run of decimal digits; `none` when unparseable. -/
def pyInt? (s : String) : Option Int :=
  match stripEnds Char.isWhitespace s.data with
  | '-' :: rest => if pyIsDigit rest then some (-(digitsVal rest : Int)) else none
  | '+' :: rest => if pyIsDigit rest then some (digitsVal rest : Int) else none
  | l => if pyIsDigit l then some (digitsVal l : Int) else none

/-- Decimal representation of a natural number, most significant digit first;
structural counterpart of `Nat.toDigits 10`. -/
def decRepr (n : Nat) : List Char :=
  if _h : n < 10 then [Nat.digitChar n]
  else decRepr (n / 10) ++ [Nat.digitChar (n % 10)]
  decreasing_by exact Nat.div_lt_self (by omega) (by omega)

/-- The node name `f"BASE_CYCLE"` used by both variants. -/
def nodeName (b : String) (c : Nat) : String :=
  b ++ "_" ++ Nat.repr c

/-! ### Facts about the decimal representation -/

theorem digitChar_ne_underscore (n : Nat) : Nat.digitChar n ≠ '_' := by
  match n with
  | 0 => decide
  | 1 => decide
  | 2 => decide
  | 3 => decide
  | 4 => decide
  | 5 => decide
  | 6 => decide
  | 7 => decide
  | 8 => decide
  | 9 => decide
  | 10 => decide
  | 11 => decide
  | 12 => decide
  | 13 => decide
  | 14 => decide
  | 15 => decide
  | m + 16 =>
    unfold Nat.digitChar
    repeat' rw [if_neg (by omega)]
    decide

theorem digitChar_lt10_val (n : Nat) (h : n < 10) :
    (Nat.digitChar n).toNat - 48 = n := by
  interval_cases n <;> rfl

theorem decRepr_ne_underscore (n : Nat) : ∀ c ∈ decRepr n, c ≠ '_' := by
  induction n using Nat.strong_induction_on with
  | _ n ih =>
    intro c hc
    rw [decRepr] at hc
    split at hc
    · simp only [List.mem_singleton] at hc
      subst hc; exact digitChar_ne_underscore n
    · rcases List.mem_append.mp hc with h | h
      · exact ih (n / 10) (Nat.div_lt_self (by omega) (by omega)) c h
      · simp only [List.mem_singleton] at h
        subst h; exact digitChar_ne_underscore (n % 10)

theorem digitsVal_append_singleton (l : List Char) (c : Char) :
    digitsVal (l ++ [c]) = 10 * digitsVal l + (c.toNat - 48) := by
  simp [digitsVal, List.foldl_append]

theorem digitsVal_decRepr (n : Nat) : digitsVal (decRepr n) = n := by
  induction n using Nat.strong_induction_on with
  | _ n ih =>
    rw [decRepr]
    split
    · simp only [digitsVal, List.foldl_cons, List.foldl_nil]
      rw [digitChar_lt10_val n (by omega)]
      omega
    · rw [digitsVal_append_singleton,
        ih (n / 10) (Nat.div_lt_self (by omega) (by omega)),
        digitChar_lt10_val (n % 10) (Nat.mod_lt _ (by omega))]
      omega

theorem decRepr_injective : Function.Injective decRepr := by
  intro a b h
  have := digitsVal_decRepr a
  rw [h, digitsVal_decRepr] at this
  omega

theorem toDigitsCore_succ (f n : Nat) (l : List Char) :
    Nat.toDigitsCore 10 (f + 1) n l =
      if n / 10 = 0 then Nat.digitChar (n % 10) :: l
      else Nat.toDigitsCore 10 f (n / 10) (Nat.digitChar (n % 10) :: l) := rfl

theorem toDigitsCore_eq_decRepr (f n : Nat) (l : List Char) (h : n < f) :
    Nat.toDigitsCore 10 f n l = decRepr n ++ l := by
  induction f generalizing n l with
  | zero => omega
  | succ f ih =>
    rw [toDigitsCore_succ]
    by_cases h0 : n / 10 = 0
    · have hn : n < 10 := by omega
      rw [if_pos h0, show decRepr n = [Nat.digitChar n] from by rw [decRepr, dif_pos hn],
        Nat.mod_eq_of_lt hn]
      rfl
    · rw [if_neg h0, ih (n / 10) _ (by omega)]
      conv_rhs => rw [decRepr]
      rw [dif_neg (by omega)]
      simp

theorem repr_data_eq_decRepr (n : Nat) : (Nat.repr n).data = decRepr n := by
  show (Nat.toDigits 10 n).asString.data = decRepr n
  rw [Nat.toDigits, toDigitsCore_eq_decRepr (n + 1) n [] (by omega)]
  simp [List.asString]

/-- Splitting at a letter that occurs in neither right part is unambiguous. -/
theorem append_cons_inj {a : Char} :
    ∀ (l1 l2 r1 r2 : List Char), a ∉ r1 → a ∉ r2 →
      l1 ++ a :: r1 = l2 ++ a :: r2 → l1 = l2 ∧ r1 = r2 := by
  intro l1
  induction l1 with
  | nil =>
    intro l2 r1 r2 h1 h2 heq
    cases l2 with
    | nil => simpa using heq
    | cons x l2' =>
      simp only [List.nil_append, List.cons_append, List.cons.injEq] at heq
      exfalso
      exact h1 (heq.2 ▸ List.mem_append_right l2' (List.mem_cons_self a r2))
  | cons x l1' ih =>
    intro l2 r1 r2 h1 h2 heq
    cases l2 with
    | nil =>
      simp only [List.cons_append, List.nil_append, List.cons.injEq] at heq
      exfalso
      exact h2 (heq.2.symm ▸ List.mem_append_right l1' (List.mem_cons_self a r1))
    | cons y l2' =>
      simp only [List.cons_append, List.cons.injEq] at heq
      obtain ⟨hxy, heq'⟩ := heq
      obtain ⟨he1, he2⟩ := ih l2' r1 r2 h1 h2 heq'
      exact ⟨by rw [hxy, he1], he2⟩

theorem nodeName_injective (b1 b2 : String) (c1 c2 : Nat)
    (h : nodeName b1 c1 = nodeName b2 c2) : b1 = b2 ∧ c1 = c2 := by
  have hd : b1.data ++ '_' :: (Nat.repr c1).data
      = b2.data ++ '_' :: (Nat.repr c2).data := by
    have := congrArg String.data h
    simpa [nodeName, String.data_append] using this
  rw [repr_data_eq_decRepr, repr_data_eq_decRepr] at hd
  have h1 : '_' ∉ decRepr c1 := fun hm => decRepr_ne_underscore c1 '_' hm rfl
  have h2 : '_' ∉ decRepr c2 := fun hm => decRepr_ne_underscore c2 '_' hm rfl
  obtain ⟨hb, hc⟩ := append_cons_inj _ _ _ _ h1 h2 hd
  exact ⟨by cases b1; cases b2; simp_all, decRepr_injective hc⟩

/-! ### Variant 1: `unfolding_final.py` (explicit-label delta policy) -/

namespace UnfoldingFinal

/-- Base-name derivation of `unfolding_final.py` (lines 23-27 and 56-57):
split on `'_'`; if there are at least two parts and the last is all digits,
rejoin all but the last, otherwise keep the identifier unchanged. -/
def baseName (node : String) : String :=
  let parts := splitUnderscore node.data
  if parts.length > 1 && pyIsDigit (parts.getLastD []) then
    (List.intercalate ['_'] parts.dropLast).asString
  else node

/-- The `constraint`/`color` copying loop (lines 50-53). -/
def copyOther (data : AttrMap) : AttrMap :=
  (match List.lookup "constraint" data with
   | some v => [("constraint", v)]
   | none => []) ++
  (match List.lookup "color" data with
   | some v => [("color", v)]
   | none => [])

/-- The attribute map built for every generated instance of an edge: the
original `label` verbatim when present, then `constraint` and `color` when
present. It depends only on the original edge. -/
def edgeAttrs (e : Edge) : AttrMap :=
  match List.lookup "label" e.attrs with
  | some lab => ("label", lab) :: copyOther e.attrs
  | none => copyOther e.attrs

/-- The delta derivation of lines 37-44: parse the quote-stripped `label` as an
integer (`InvalidLabelError` on failure, `NegativeDeltaError` when negative);
a missing `label` means delta 0. -/
def deriveDelta (e : Edge) : Except Err Int :=
  match List.lookup "label" e.attrs with
  | some lab =>
    match pyInt? (stripQuotes lab) with
    | none => .error .invalidLabelError
    | some d => if d < 0 then .error .negativeDeltaError else .ok d
  | none => .ok 0

/-- The body of the edge loop (lines 32-62) for one original edge and one
source cycle: derive the delta, compute the destination cycle, build the new
attribute map, and name the endpoint copies. -/
def processEdge (e : Edge) (cycle k : Nat) : Except Err Triple :=
  match List.lookup "label" e.attrs with
  | some lab =>
    match pyInt? (stripQuotes lab) with
    | none => .error .invalidLabelError
    | some d =>
      if d < 0 then .error .negativeDeltaError
      else
        .ok ⟨nodeName (baseName e.src) cycle,
             nodeName (baseName e.dst) ((cycle + d.toNat) % k),
             ("label", lab) :: copyOther e.attrs⟩
  | none =>
    .ok ⟨nodeName (baseName e.src) cycle, nodeName (baseName e.dst) cycle,
         copyOther e.attrs⟩

/-- The node names added by the node loop (lines 21-28), in loop order. -/
def nodeAdds (g : Graph) (k : Nat) : List String :=
  (List.range k).flatMap (fun c => g.nodes.map (fun p => nodeName (baseName p.1) c))

/-- The node list after the node loop; `add_node` is called with no
attributes. -/
def nodesInit (g : Graph) (k : Nat) : List (String × AttrMap) :=
  (nodeAdds g k).foldl (fun ns nm => addNodeAttrs ns nm []) []

/-- The (edge, cycle) pairs in the order the edge loop visits them:
outer loop over cycles, inner loop over edges. -/
def pairs (g : Graph) (k : Nat) : List (Edge × Nat) :=
  (List.range k).flatMap (fun c => g.edges.map (fun e => (e, c)))

/-- `unfold_graph` of `unfolding_final.py`: validate `k`, expand the nodes,
then rewire every edge for every source cycle, failing on the first bad
label. -/
def unfold_graph (g : Graph) (k : PyNum) : Except Err Graph :=
  if k.lt1 || !k.isInstInt then .error .configurationError
  else
    let kk := k.toNatVal
    match mapExcept (fun ec => processEdge ec.1 ec.2 kk) (pairs g kk) with
    | .error err => .error err
    | .ok ts => .ok (ts.foldl applyTriple ⟨nodesInit g kk, []⟩)

end UnfoldingFinal

/-! ### Variant 2: `unfolding_final_1.py` (constraint-flag delta policy) -/

namespace UnfoldingFinal1

/-- `extract_base` of `unfolding_final_1.py` (lines 4-6): everything before
the first underscore. -/
def extract_base (node : String) : String :=
  ((splitUnderscore node.data).headD []).asString

/-- Constraint-edge detection (lines 13-16): the keys of the edges whose
`constraint` attribute equals `"false"`, computed once from the original
graph. -/
def constraintEdges (g : Graph) : List (String × String) :=
  (g.edges.filter (fun e => List.lookup "constraint" e.attrs == some "false")).map
    (fun e => (e.src, e.dst))

/-- Delta derivation (line 37): 1 for a detected constraint edge, else 0. -/
def deltaOf (cset : List (String × String)) (e : Edge) : Nat :=
  if cset.contains (e.src, e.dst) then 1 else 0

/-- The attribute retention step (lines 41-53): a constraint edge keeps its
attributes only on the instance with `cycle = k-1` and `dst_cycle = 0`;
otherwise `constraint`, `color` and `label` are removed. -/
def retained (isC : Bool) (data : AttrMap) (cycle dst_cycle k : Nat) : AttrMap :=
  if isC then
    if cycle = k - 1 ∧ dst_cycle = 0 then data
    else delAttr (delAttr (delAttr data "constraint") "color") "label"
  else data

/-- The body of the edge loop (lines 28-68) for one original edge and one
source cycle: look up the constraint set, compute the destination cycle,
retain or strip attributes, check the non-constraint invariant, and
quote-normalize a retained label. -/
def processEdge (cset : List (String × String)) (e : Edge) (cycle k : Nat) :
    Except Err Triple :=
  let is_c := cset.contains (e.src, e.dst)
  let dst_cycle := (cycle + deltaOf cset e) % k
  let nd1 := retained is_c e.attrs cycle dst_cycle k
  if !is_c && !(dst_cycle == cycle) then .error .invariantViolationError
  else
    let nd2 :=
      match List.lookup "label" nd1 with
      | some lab => setAttr nd1 "label" (quoteNormalize lab)
      | none => nd1
    .ok ⟨nodeName (extract_base e.src) cycle, nodeName (extract_base e.dst) dst_cycle,
         nd2⟩

/-- The nodes added by the node loop (lines 21-25), in loop order; the
original node's full attribute map is copied onto each copy. -/
def nodeAdds (g : Graph) (k : Nat) : List (String × AttrMap) :=
  (List.range k).flatMap (fun c =>
    g.nodes.map (fun p => (nodeName (extract_base p.1) c, p.2)))

/-- The node list after the node loop. -/
def nodesInit (g : Graph) (k : Nat) : List (String × AttrMap) :=
  (nodeAdds g k).foldl (fun ns p => addNodeAttrs ns p.1 p.2) []

/-- The (edge, cycle) pairs in the order the edge loop visits them. -/
def pairs (g : Graph) (k : Nat) : List (Edge × Nat) :=
  (List.range k).flatMap (fun c => g.edges.map (fun e => (e, c)))

/-- `unfold_graph` of `unfolding_final_1.py`: validate `k`, detect constraint
edges once, expand the nodes, then rewire every edge for every source cycle. -/
def unfold_graph (g : Graph) (k : PyNum) : Except Err Graph :=
  if k.lt1 || !k.isInstInt then .error .configurationError
  else
    let kk := k.toNatVal
    let cset := constraintEdges g
    match mapExcept (fun ec => processEdge cset ec.1 ec.2 kk) (pairs g kk) with
    | .error err => .error err
    | .ok ts => .ok (ts.foldl applyTriple ⟨nodesInit g kk, []⟩)

end UnfoldingFinal1

/-! ### Lemmas about `mapExcept` -/

theorem mapExcept_ok_length {f : α → Except Err β} :
    ∀ {l : List α} {bs : List β}, mapExcept f l = .ok bs → bs.length = l.length := by
  intro l
  induction l with
  | nil =>
    intro bs h
    simp only [mapExcept, Except.ok.injEq] at h
    subst h
    rfl
  | cons a as ih =>
    intro bs h
    cases hfa : f a with
    | error e => simp [mapExcept, hfa] at h
    | ok b =>
      cases hrec : mapExcept f as with
      | error e => simp [mapExcept, hfa, hrec] at h
      | ok bs' =>
        simp [mapExcept, hfa, hrec] at h
        simp [← h, ih hrec]

theorem mapExcept_ok_mem {f : α → Except Err β} :
    ∀ {l : List α} {bs : List β}, mapExcept f l = .ok bs →
      ∀ a ∈ l, ∃ b ∈ bs, f a = .ok b := by
  intro l
  induction l with
  | nil => intro bs _ a ha; simp at ha
  | cons x as ih =>
    intro bs h a ha
    cases hfa : f x with
    | error e => simp [mapExcept, hfa] at h
    | ok b =>
      cases hrec : mapExcept f as with
      | error e => simp [mapExcept, hfa, hrec] at h
      | ok bs' =>
        simp [mapExcept, hfa, hrec] at h
        rcases List.mem_cons.mp ha with rfl | ha'
        · exact ⟨b, by simp [← h], hfa⟩
        · obtain ⟨b', hb', hfb'⟩ := ih hrec a ha'
          exact ⟨b', by simp [← h, hb'], hfb'⟩

theorem mapExcept_ok_mem_rev {f : α → Except Err β} :
    ∀ {l : List α} {bs : List β}, mapExcept f l = .ok bs →
      ∀ b ∈ bs, ∃ a ∈ l, f a = .ok b := by
  intro l
  induction l with
  | nil =>
    intro bs h b hb
    simp only [mapExcept, Except.ok.injEq] at h
    subst h
    simp at hb
  | cons x as ih =>
    intro bs h b hb
    cases hfa : f x with
    | error e => simp [mapExcept, hfa] at h
    | ok b' =>
      cases hrec : mapExcept f as with
      | error e => simp [mapExcept, hfa, hrec] at h
      | ok bs' =>
        simp [mapExcept, hfa, hrec] at h
        rw [← h] at hb
        rcases List.mem_cons.mp hb with rfl | hb'
        · exact ⟨x, List.mem_cons_self x as, hfa⟩
        · obtain ⟨a, ha, hfb⟩ := ih hrec b hb'
          exact ⟨a, List.mem_cons_of_mem x ha, hfb⟩

theorem mapExcept_ok_of_forall {f : α → Except Err β} :
    ∀ {l : List α}, (∀ a ∈ l, ∃ b, f a = .ok b) → ∃ bs, mapExcept f l = .ok bs := by
  intro l
  induction l with
  | nil => intro _; exact ⟨[], rfl⟩
  | cons x as ih =>
    intro h
    obtain ⟨b, hb⟩ := h x (List.mem_cons_self x as)
    obtain ⟨bs, hbs⟩ := ih (fun a ha => h a (List.mem_cons_of_mem x ha))
    exact ⟨b :: bs, by simp [mapExcept, hb, hbs]⟩

theorem mapExcept_ok_getElem {f : α → Except Err β} :
    ∀ {l : List α} {bs : List β}, mapExcept f l = .ok bs →
      ∀ (i : Nat) (h1 : i < l.length) (h2 : i < bs.length),
        f (l.get ⟨i, h1⟩) = .ok (bs.get ⟨i, h2⟩) := by
  intro l
  induction l with
  | nil => intro bs _ i h1; simp at h1
  | cons x as ih =>
    intro bs h i h1 h2
    cases hfa : f x with
    | error e => simp [mapExcept, hfa] at h
    | ok b =>
      cases hrec : mapExcept f as with
      | error e => simp [mapExcept, hfa, hrec] at h
      | ok bs' =>
        simp [mapExcept, hfa, hrec] at h
        subst h
        cases i with
        | zero => simpa using hfa
        | succ j => exact ih hrec j (by simpa using h1) (by simpa using h2)

theorem mapExcept_not_ok {f : α → Except Err β} {l : List α}
    (h : ∀ bs, mapExcept f l ≠ .ok bs) : ∃ e, mapExcept f l = .error e := by
  cases hm : mapExcept f l with
  | error e => exact ⟨e, rfl⟩
  | ok bs => exact absurd hm (h bs)

/-! ### Lemmas about attribute maps -/

theorem lookup_delAttr_self (m : AttrMap) (a : String) :
    List.lookup a (delAttr m a) = none := by
  induction m with
  | nil => rfl
  | cons p rest ih =>
    by_cases hp : p.1 = a
    · simpa [delAttr, hp] using ih
    · simp only [delAttr, List.filter_cons] at ih ⊢
      have : (!(p.1 == a)) = true := by simp [hp]
      rw [this]
      simp only [List.lookup]
      have : (a == p.1) = false := by simp [Ne.symm hp]
      rw [this]
      exact ih

theorem lookup_delAttr_ne (m : AttrMap) {a b : String} (h : a ≠ b) :
    List.lookup a (delAttr m b) = List.lookup a m := by
  induction m with
  | nil => rfl
  | cons p rest ih =>
    by_cases hp : p.1 = b
    · have h1 : (!(p.1 == b)) = false := by simp [hp]
      have h2 : (a == p.1) = false := by simp [hp, h]
      simp only [delAttr, List.filter_cons, h1, List.lookup, h2]
      exact ih
    · have h1 : (!(p.1 == b)) = true := by simp [hp]
      simp only [delAttr, List.filter_cons, h1, List.lookup]
      cases hap : a == p.1 with
      | true => rfl
      | false => exact ih

theorem any_key_iff_lookup (m : AttrMap) (key : String) :
    m.any (fun p => p.1 == key) = true ↔ (List.lookup key m).isSome = true := by
  rw [List.lookup_isSome_iff, List.any_eq_true]
  constructor
  · rintro ⟨p, hp, hpk⟩
    refine ⟨p, hp, ?_⟩
    rw [beq_iff_eq] at hpk ⊢
    exact hpk.symm
  · rintro ⟨p, hp, hpk⟩
    refine ⟨p, hp, ?_⟩
    rw [beq_iff_eq] at hpk ⊢
    exact hpk.symm

theorem lookup_append_attr (a : String) (l1 l2 : AttrMap) :
    List.lookup a (l1 ++ l2) =
      match List.lookup a l1 with
      | some v => some v
      | none => List.lookup a l2 := by
  induction l1 with
  | nil => simp
  | cons p rest ih =>
    obtain ⟨pk, pv⟩ := p
    simp only [List.cons_append, List.lookup_cons]
    cases a == pk <;> simp [ih]

theorem lookup_mapSet (m : AttrMap) (a key v : String) :
    List.lookup a (m.map (fun p => if p.1 = key then (p.1, v) else p)) =
      if a = key then (List.lookup key m).map (fun _ => v) else List.lookup a m := by
  induction m with
  | nil => by_cases h : a = key <;> simp [h]
  | cons p rest ih =>
    obtain ⟨pk, pv⟩ := p
    simp only [List.map_cons]
    by_cases hp : pk = key <;> by_cases ha : a = key
    · subst hp; subst ha
      simp [List.lookup_cons]
    · subst hp
      have h1 : (a == pk) = false := by simp [ha]
      simp [List.lookup_cons, h1, ih, ha]
    · subst ha
      have h1 : (a == pk) = false := by simp [Ne.symm hp]
      simp [List.lookup_cons, h1, ih, hp]
    · simp only [if_neg hp, List.lookup_cons]
      cases a == pk <;> simp [ih, ha]

theorem lookup_setAttr_self (m : AttrMap) (key v : String) :
    List.lookup key (setAttr m key v) = some v := by
  unfold setAttr
  split
  · rename_i hany
    rw [lookup_mapSet, if_pos rfl]
    have : (List.lookup key m).isSome = true := (any_key_iff_lookup m key).mp hany
    cases hl : List.lookup key m with
    | none => rw [hl] at this; simp at this
    | some w => simp
  · rename_i hany
    have hnone : List.lookup key m = none := by
      cases hl : List.lookup key m with
      | none => rfl
      | some w =>
        exact absurd ((any_key_iff_lookup m key).mpr (by simp [hl])) hany
    rw [lookup_append_attr, hnone]
    simp

theorem lookup_setAttr_ne (m : AttrMap) {a key : String} (h : a ≠ key) (v : String) :
    List.lookup a (setAttr m key v) = List.lookup a m := by
  unfold setAttr
  split
  · rw [lookup_mapSet, if_neg h]
  · rw [lookup_append_attr]
    cases hl : List.lookup a m with
    | some w => rfl
    | none =>
      have hb : (a == key) = false := by simp [h]
      show List.lookup a [(key, v)] = none
      simp [List.lookup_cons, hb]

/-! ### Lemmas about node and edge insertion -/

theorem any_fst_iff (ns : List (String × AttrMap)) (nm : String) :
    ns.any (fun p => p.1 == nm) = true ↔ nm ∈ ns.map Prod.fst := by
  rw [List.any_eq_true]
  constructor
  · rintro ⟨p, hp, hpe⟩
    rw [beq_iff_eq] at hpe
    exact hpe ▸ List.mem_map_of_mem Prod.fst hp
  · intro h
    rw [List.mem_map] at h
    obtain ⟨p, hp, hpe⟩ := h
    exact ⟨p, hp, by rw [beq_iff_eq]; exact hpe⟩

theorem addNodeAttrs_fst_mem (ns : List (String × AttrMap)) (nm : String) (a : AttrMap)
    (h : nm ∈ ns.map Prod.fst) :
    (addNodeAttrs ns nm a).map Prod.fst = ns.map Prod.fst := by
  unfold addNodeAttrs
  rw [if_pos ((any_fst_iff ns nm).mpr h), List.map_map]
  apply List.map_congr_left
  intro p _
  by_cases hp : p.1 = nm <;> simp [hp]

theorem addNodeAttrs_fst_not_mem {ns : List (String × AttrMap)} {nm : String} {a : AttrMap}
    (h : nm ∉ ns.map Prod.fst) :
    (addNodeAttrs ns nm a).map Prod.fst = ns.map Prod.fst ++ [nm] := by
  unfold addNodeAttrs
  rw [if_neg (fun hc => h ((any_fst_iff ns nm).mp hc))]
  simp

/-- The node loops of both variants as one fold of `add_node` calls. -/
def foldAddNodes (ns : List (String × AttrMap)) (L : List (String × AttrMap)) :
    List (String × AttrMap) :=
  L.foldl (fun acc p => addNodeAttrs acc p.1 p.2) ns

theorem foldAddNodes_fst_mem :
    ∀ (L ns : List (String × AttrMap)) (x : String),
      x ∈ (foldAddNodes ns L).map Prod.fst ↔
        x ∈ ns.map Prod.fst ∨ x ∈ L.map Prod.fst := by
  intro L
  induction L with
  | nil => intro ns x; simp [foldAddNodes]
  | cons p rest ih =>
    intro ns x
    have hstep : foldAddNodes ns (p :: rest) = foldAddNodes (addNodeAttrs ns p.1 p.2) rest := rfl
    rw [hstep, ih]
    by_cases hp : p.1 ∈ ns.map Prod.fst
    · rw [addNodeAttrs_fst_mem _ _ _ hp]
      simp only [List.map_cons, List.mem_cons]
      constructor
      · rintro (h | h)
        · exact Or.inl h
        · exact Or.inr (Or.inr h)
      · rintro (h | rfl | h)
        · exact Or.inl h
        · exact Or.inl hp
        · exact Or.inr h
    · rw [addNodeAttrs_fst_not_mem hp]
      simp only [List.mem_append, List.mem_singleton, List.map_cons, List.mem_cons]
      tauto

theorem foldAddNodes_fst_nodup :
    ∀ (L ns : List (String × AttrMap)),
      (ns.map Prod.fst).Nodup → ((foldAddNodes ns L).map Prod.fst).Nodup := by
  intro L
  induction L with
  | nil => intro ns h; exact h
  | cons p rest ih =>
    intro ns h
    show ((foldAddNodes (addNodeAttrs ns p.1 p.2) rest).map Prod.fst).Nodup
    apply ih
    by_cases hp : p.1 ∈ ns.map Prod.fst
    · rw [addNodeAttrs_fst_mem _ _ _ hp]; exact h
    · rw [addNodeAttrs_fst_not_mem hp]
      rw [List.nodup_append]
      exact ⟨h, List.nodup_singleton _, by simp [hp]⟩

theorem foldAddNodes_length (L : List (String × AttrMap)) :
    (foldAddNodes [] L).length = (L.map Prod.fst).toFinset.card := by
  have h1 : (foldAddNodes [] L).length = ((foldAddNodes [] L).map Prod.fst).length := by
    rw [List.length_map]
  have h2 : ((foldAddNodes [] L).map Prod.fst).Nodup :=
    foldAddNodes_fst_nodup L [] (by simp)
  have h3 : ((foldAddNodes [] L).map Prod.fst).toFinset = (L.map Prod.fst).toFinset := by
    ext x
    simp only [List.mem_toFinset]
    rw [foldAddNodes_fst_mem]
    simp
  rw [h1, ← List.toFinset_card_of_nodup h2, h3]

/-- The names generated by a node-expansion loop: one copy of each base name
per cycle. -/
def expandedNames (bf : String → String) (names : List String) (k : Nat) : List String :=
  (List.range k).flatMap (fun c => names.map (fun nm => nodeName (bf nm) c))

theorem mem_expandedNames {bf : String → String} {names : List String} {k : Nat} {x : String} :
    x ∈ expandedNames bf names k ↔ ∃ c < k, ∃ nm ∈ names, nodeName (bf nm) c = x := by
  simp [expandedNames, List.mem_flatMap, List.mem_range, List.mem_map]

theorem nodeName_inj_pair : Function.Injective (fun bc : String × Nat => nodeName bc.1 bc.2) := by
  rintro ⟨b1, c1⟩ ⟨b2, c2⟩ h
  obtain ⟨hb, hc⟩ := nodeName_injective b1 b2 c1 c2 h
  simp only [Prod.mk.injEq]
  exact ⟨hb, hc⟩

theorem expandedNames_card (bf : String → String) (names : List String) (k : Nat) :
    (expandedNames bf names k).toFinset.card = k * (names.map bf).toFinset.card := by
  have himg : (expandedNames bf names k).toFinset =
      ((names.map bf).toFinset ×ˢ Finset.range k).image (fun bc => nodeName bc.1 bc.2) := by
    ext x
    simp only [List.mem_toFinset, Finset.mem_image, Finset.mem_product, Finset.mem_range,
      List.mem_map]
    rw [mem_expandedNames]
    constructor
    · rintro ⟨c, hc, nm, hnm, rfl⟩
      exact ⟨⟨bf nm, c⟩, ⟨⟨nm, hnm, rfl⟩, hc⟩, rfl⟩
    · rintro ⟨⟨b, c⟩, ⟨⟨nm, hnm, rfl⟩, hc⟩, rfl⟩
      exact ⟨c, hc, nm, hnm, rfl⟩
  rw [himg, Finset.card_image_of_injective _ nodeName_inj_pair, Finset.card_product,
    Finset.card_range]
  ring

theorem ensureNode_of_mem {ns : List (String × AttrMap)} {nm : String}
    (h : nm ∈ ns.map Prod.fst) : ensureNode ns nm = ns := by
  unfold ensureNode
  rw [if_pos ((any_fst_iff ns nm).mpr h)]

theorem applyTriple_nodes_of_mem (g : Graph) (t : Triple)
    (h1 : t.src ∈ g.nodes.map Prod.fst) (h2 : t.dst ∈ g.nodes.map Prod.fst) :
    (applyTriple g t).nodes = g.nodes := by
  show ensureNode (ensureNode g.nodes t.src) t.dst = g.nodes
  rw [ensureNode_of_mem h1, ensureNode_of_mem h2]

theorem foldApply_nodes :
    ∀ (ts : List Triple) (g0 : Graph),
      (∀ t ∈ ts, t.src ∈ g0.nodes.map Prod.fst ∧ t.dst ∈ g0.nodes.map Prod.fst) →
      (ts.foldl applyTriple g0).nodes = g0.nodes := by
  intro ts
  induction ts with
  | nil => intro g0 _; rfl
  | cons t rest ih =>
    intro g0 h
    have ht := h t (List.mem_cons_self t rest)
    have hnodes : (applyTriple g0 t).nodes = g0.nodes :=
      applyTriple_nodes_of_mem g0 t ht.1 ht.2
    rw [List.foldl_cons,
      ih (applyTriple g0 t)
        (fun t' ht' => by rw [hnodes]; exact h t' (List.mem_cons_of_mem t ht')),
      hnodes]

/-- The (source, destination) keys of an edge list. -/
def edgeKeys (es : List Edge) : List (String × String) :=
  es.map (fun e => (e.src, e.dst))

theorem any_edge_key_iff (es : List Edge) (s d : String) :
    es.any (fun e => e.src == s && e.dst == d) = true ↔ (s, d) ∈ edgeKeys es := by
  rw [List.any_eq_true]
  simp only [edgeKeys, List.mem_map, Bool.and_eq_true, beq_iff_eq]
  constructor
  · rintro ⟨e, he, rfl, rfl⟩; exact ⟨e, he, rfl⟩
  · rintro ⟨e, he, heq⟩
    exact ⟨e, he, congrArg Prod.fst heq, congrArg Prod.snd heq⟩

theorem addEdge_key_self (es : List Edge) (s d : String) (a : AttrMap) :
    (s, d) ∈ edgeKeys (addEdge es s d a) := by
  unfold addEdge
  split
  · rename_i hany
    rw [List.any_eq_true] at hany
    obtain ⟨e, he, hpe⟩ := hany
    simp only [Bool.and_eq_true, beq_iff_eq] at hpe
    unfold edgeKeys
    rw [List.map_map]
    have hkey : (s, d) = ((fun e => (e.src, e.dst)) ∘ fun e =>
        if e.src = s ∧ e.dst = d then { e with attrs := updateAttrs e.attrs a } else e) e := by
      simp [Function.comp, if_pos hpe, hpe.1, hpe.2]
    rw [hkey]
    exact List.mem_map_of_mem _ he
  · unfold edgeKeys
    rw [List.map_append]
    exact List.mem_append_right _ (by simp)

theorem addEdge_key_mono {es : List Edge} {p : String × String} (s d : String) (a : AttrMap)
    (h : p ∈ edgeKeys es) : p ∈ edgeKeys (addEdge es s d a) := by
  unfold addEdge
  split
  · unfold edgeKeys at h ⊢
    rw [List.map_map]
    rw [List.mem_map] at h
    obtain ⟨e, he, heq⟩ := h
    subst heq
    have hkey : (e.src, e.dst) = ((fun e => (e.src, e.dst)) ∘ fun e =>
        if e.src = s ∧ e.dst = d then { e with attrs := updateAttrs e.attrs a } else e) e := by
      by_cases hc : e.src = s ∧ e.dst = d
      · simp [Function.comp, if_pos hc, hc.1, hc.2]
      · simp [Function.comp, if_neg hc]
    rw [hkey]
    exact List.mem_map_of_mem _ he
  · unfold edgeKeys at h ⊢
    rw [List.map_append]
    exact List.mem_append_left _ h

theorem foldApply_key_mono :
    ∀ (ts : List Triple) (g0 : Graph) (p : String × String),
      p ∈ edgeKeys g0.edges → p ∈ edgeKeys ((ts.foldl applyTriple g0).edges) := by
  intro ts
  induction ts with
  | nil => intro g0 p h; exact h
  | cons t rest ih =>
    intro g0 p h
    rw [List.foldl_cons]
    exact ih _ p (addEdge_key_mono t.src t.dst t.attrs h)

theorem foldApply_key_mem :
    ∀ (ts : List Triple) (g0 : Graph) (t : Triple), t ∈ ts →
      (t.src, t.dst) ∈ edgeKeys ((ts.foldl applyTriple g0).edges) := by
  intro ts
  induction ts with
  | nil => intro g0 t ht; simp at ht
  | cons u rest ih =>
    intro g0 t ht
    rw [List.foldl_cons]
    rcases List.mem_cons.mp ht with rfl | ht'
    · exact foldApply_key_mono rest _ _ (addEdge_key_self g0.edges t.src t.dst t.attrs)
    · exact ih _ t ht'

/-! ### Helper lemmas for variant 1 -/

namespace UnfoldingFinal

theorem toNatVal_int (kk : Nat) : (PyNum.int kk).toNatVal = kk := by
  simp [PyNum.toNatVal]

theorem guard_false {kk : Nat} (hk : 1 ≤ kk) :
    (PyNum.lt1 (.int kk) || !(PyNum.isInstInt (.int kk))) = false := by
  simp only [PyNum.lt1, PyNum.isInstInt, Bool.not_true, Bool.or_false,
    decide_eq_false_iff_not, not_lt]
  exact_mod_cast hk

theorem unfold_graph_int (g : Graph) {kk : Nat} (hk : 1 ≤ kk) :
    unfold_graph g (.int kk) =
      match mapExcept (fun ec => processEdge ec.1 ec.2 kk) (pairs g kk) with
      | .error err => .error err
      | .ok ts => .ok (ts.foldl applyTriple ⟨nodesInit g kk, []⟩) := by
  unfold unfold_graph
  rw [guard_false hk]
  simp only [Bool.false_eq_true, if_false, toNatVal_int]

theorem processEdge_ok_of_delta {e : Edge} {d : Int} (hd : deriveDelta e = .ok d)
    (c kk : Nat) (hc : c < kk) :
    processEdge e c kk = .ok ⟨nodeName (baseName e.src) c,
      nodeName (baseName e.dst) ((c + d.toNat) % kk), edgeAttrs e⟩ := by
  cases hl : List.lookup "label" e.attrs with
  | none =>
    simp only [deriveDelta, hl, Except.ok.injEq] at hd
    subst hd
    simp [processEdge, edgeAttrs, hl, Nat.mod_eq_of_lt hc]
  | some lab =>
    cases hp : pyInt? (stripQuotes lab) with
    | none => simp [deriveDelta, hl, hp] at hd
    | some d' =>
      by_cases hneg : d' < 0
      · simp [deriveDelta, hl, hp, hneg] at hd
      · simp only [deriveDelta, hl, hp, if_neg hneg, Except.ok.injEq] at hd
        subst hd
        simp [processEdge, edgeAttrs, hl, hp, hneg]

theorem processEdge_invalid {e : Edge} {lab : String}
    (hl : List.lookup "label" e.attrs = some lab)
    (hp : pyInt? (stripQuotes lab) = none) (c kk : Nat) :
    processEdge e c kk = .error .invalidLabelError := by
  simp [processEdge, hl, hp]

theorem processEdge_negative {e : Edge} {lab : String} {d : Int}
    (hl : List.lookup "label" e.attrs = some lab)
    (hp : pyInt? (stripQuotes lab) = some d) (hd : d < 0) (c kk : Nat) :
    processEdge e c kk = .error .negativeDeltaError := by
  simp [processEdge, hl, hp, hd]

theorem processEdge_nolabel {e : Edge} (hl : List.lookup "label" e.attrs = none)
    (c kk : Nat) :
    processEdge e c kk = .ok ⟨nodeName (baseName e.src) c,
      nodeName (baseName e.dst) c, copyOther e.attrs⟩ := by
  simp [processEdge, hl]

theorem processEdge_ok_derive {e : Edge} {c kk : Nat} {t : Triple}
    (h : processEdge e c kk = .ok t) :
    ∃ d, deriveDelta e = .ok d ∧ 0 ≤ d := by
  cases hl : List.lookup "label" e.attrs with
  | none => exact ⟨0, by simp [deriveDelta, hl], le_refl 0⟩
  | some lab =>
    cases hp : pyInt? (stripQuotes lab) with
    | none =>
      rw [processEdge_invalid hl hp c kk] at h
      simp at h
    | some d' =>
      by_cases hneg : d' < 0
      · rw [processEdge_negative hl hp hneg c kk] at h
        simp at h
      · exact ⟨d', by simp [deriveDelta, hl, hp, if_neg hneg], not_lt.mp hneg⟩

theorem processEdge_ok_shape {e : Edge} {c kk : Nat} {t : Triple}
    (hc : c < kk) (h : processEdge e c kk = .ok t) :
    t.src = nodeName (baseName e.src) c ∧
    (∃ dc, dc < kk ∧ t.dst = nodeName (baseName e.dst) dc) ∧
    t.attrs = edgeAttrs e := by
  obtain ⟨d, hd, _⟩ := processEdge_ok_derive h
  rw [processEdge_ok_of_delta hd c kk hc] at h
  simp only [Except.ok.injEq] at h
  subst h
  exact ⟨rfl, ⟨(c + d.toNat) % kk, Nat.mod_lt _ (by omega), rfl⟩, rfl⟩

theorem mem_pairs {g : Graph} {kk : Nat} {e : Edge} {c : Nat} :
    (e, c) ∈ pairs g kk ↔ e ∈ g.edges ∧ c < kk := by
  simp only [pairs, List.mem_flatMap, List.mem_range, List.mem_map, Prod.mk.injEq]
  constructor
  · rintro ⟨c', hc', e', he', rfl, rfl⟩
    exact ⟨he', hc'⟩
  · rintro ⟨he, hc⟩
    exact ⟨c, hc, e, he, rfl, rfl⟩

theorem nodesInit_eq_fold (g : Graph) (kk : Nat) :
    nodesInit g kk = foldAddNodes [] ((nodeAdds g kk).map (fun nm => (nm, ([] : AttrMap)))) := by
  unfold nodesInit foldAddNodes
  rw [List.foldl_map]

theorem nodesInit_fst_mem {g : Graph} {kk : Nat} {x : String} :
    x ∈ (nodesInit g kk).map Prod.fst ↔ x ∈ nodeAdds g kk := by
  rw [nodesInit_eq_fold, foldAddNodes_fst_mem]
  simp [List.map_map, Function.comp]

theorem nodeAdds_eq_expanded (g : Graph) (kk : Nat) :
    nodeAdds g kk = expandedNames baseName (g.nodes.map Prod.fst) kk := by
  unfold nodeAdds expandedNames
  exact congrArg _ (funext fun c => by rw [List.map_map]; rfl)

theorem nodesInit_length (g : Graph) (kk : Nat) :
    (nodesInit g kk).length =
      kk * ((g.nodes.map (fun p => baseName p.1)).toFinset).card := by
  rw [nodesInit_eq_fold, foldAddNodes_length]
  have hfst : ((nodeAdds g kk).map (fun nm => (nm, ([] : AttrMap)))).map Prod.fst
      = nodeAdds g kk := by
    rw [List.map_map]
    exact List.map_id _
  rw [hfst, nodeAdds_eq_expanded, expandedNames_card]
  have hbase : (g.nodes.map Prod.fst).map baseName
      = g.nodes.map (fun p => baseName p.1) := by
    rw [List.map_map]
    rfl
  rw [hbase]

end UnfoldingFinal

/-! ### Helper lemmas for variant 2 -/

theorem contains_iff_mem_pair {l : List (String × String)} {p : String × String} :
    l.contains p = true ↔ p ∈ l := by
  rw [List.contains_eq_any_beq, List.any_eq_true]
  constructor
  · rintro ⟨q, hq, hbeq⟩
    rw [beq_iff_eq] at hbeq
    exact hbeq ▸ hq
  · intro h
    exact ⟨p, h, by simp⟩

namespace UnfoldingFinal1

theorem unfold_graph_int2 (g : Graph) {kk : Nat} (hk : 1 ≤ kk) :
    unfold_graph g (.int kk) =
      match mapExcept (fun ec => processEdge (constraintEdges g) ec.1 ec.2 kk)
          (pairs g kk) with
      | .error err => .error err
      | .ok ts => .ok (ts.foldl applyTriple ⟨nodesInit g kk, []⟩) := by
  unfold unfold_graph
  rw [UnfoldingFinal.guard_false hk]
  simp only [Bool.false_eq_true, if_false, UnfoldingFinal.toNatVal_int]

theorem mem_pairs2 {g : Graph} {kk : Nat} {e : Edge} {c : Nat} :
    (e, c) ∈ pairs g kk ↔ e ∈ g.edges ∧ c < kk := by
  simp only [pairs, List.mem_flatMap, List.mem_range, List.mem_map, Prod.mk.injEq]
  constructor
  · rintro ⟨c', hc', e', he', rfl, rfl⟩
    exact ⟨he', hc'⟩
  · rintro ⟨he, hc⟩
    exact ⟨c, hc, e, he, rfl, rfl⟩

theorem contains_constraintEdges {g : Graph} {e : Edge} (he : e ∈ g.edges)
    (hc : List.lookup "constraint" e.attrs = some "false") :
    (constraintEdges g).contains (e.src, e.dst) = true := by
  rw [contains_iff_mem_pair]
  unfold constraintEdges
  exact List.mem_map_of_mem _ (List.mem_filter_of_mem he (by simp [hc]))

theorem constraint_of_contains {g : Graph} {e : Edge} (he : e ∈ g.edges)
    (hnd : (g.edges.map (fun e => (e.src, e.dst))).Nodup)
    (hc : (constraintEdges g).contains (e.src, e.dst) = true) :
    List.lookup "constraint" e.attrs = some "false" := by
  rw [contains_iff_mem_pair] at hc
  unfold constraintEdges at hc
  rw [List.mem_map] at hc
  obtain ⟨e', he', hkey⟩ := hc
  have he'mem : e' ∈ g.edges := List.mem_of_mem_filter he'
  have hpred := List.of_mem_filter he'
  have heq : e' = e :=
    List.inj_on_of_nodup_map hnd he'mem he hkey
  rw [← heq]
  simpa using hpred

/-- The attribute map computed for one generated instance of an edge: the
retention rule followed by the label quote-normalization. It depends only on
the constraint set, the original edge, the source cycle and `k`. -/
def edgeAttrsC (cset : List (String × String)) (e : Edge) (c kk : Nat) : AttrMap :=
  let dst_cycle := (c + deltaOf cset e) % kk
  let nd1 := retained (cset.contains (e.src, e.dst)) e.attrs c dst_cycle kk
  match List.lookup "label" nd1 with
  | some lab => setAttr nd1 "label" (quoteNormalize lab)
  | none => nd1

theorem processEdge2_ok (cset : List (String × String)) (e : Edge) (c kk : Nat)
    (hc : c < kk) :
    processEdge cset e c kk = .ok ⟨nodeName (extract_base e.src) c,
      nodeName (extract_base e.dst) ((c + deltaOf cset e) % kk),
      edgeAttrsC cset e c kk⟩ := by
  cases hcc : cset.contains (e.src, e.dst) with
  | false =>
    have hnm : (e.src, e.dst) ∉ cset := fun hm => by
      rw [contains_iff_mem_pair.mpr hm] at hcc
      cases hcc
    have h0 : deltaOf cset e = 0 := by simp [deltaOf, hcc, hnm]
    simp [processEdge, edgeAttrsC, retained, hcc, h0, hnm, Nat.mod_eq_of_lt hc]
  | true =>
    have hm : (e.src, e.dst) ∈ cset := contains_iff_mem_pair.mp hcc
    have h1 : deltaOf cset e = 1 := by simp [deltaOf, hcc, hm]
    simp [processEdge, edgeAttrsC, hcc, h1, hm]

theorem lookup_retained_strip (m : AttrMap) (a : String)
    (ha : a = "constraint" ∨ a = "color" ∨ a = "label") :
    List.lookup a (delAttr (delAttr (delAttr m "constraint") "color") "label") = none := by
  rcases ha with rfl | rfl | rfl
  · rw [lookup_delAttr_ne _ (by decide), lookup_delAttr_ne _ (by decide),
      lookup_delAttr_self]
  · rw [lookup_delAttr_ne _ (by decide), lookup_delAttr_self]
  · rw [lookup_delAttr_self]

theorem lookup_isSome_normalize (m : AttrMap) (a : String) :
    (List.lookup a (match List.lookup "label" m with
      | some lab => setAttr m "label" (quoteNormalize lab)
      | none => m)).isSome = (List.lookup a m).isSome := by
  cases hl : List.lookup "label" m with
  | none => rfl
  | some lab =>
    by_cases ha : a = "label"
    · subst ha
      rw [lookup_setAttr_self, hl]
      rfl
    · rw [lookup_setAttr_ne _ ha]

theorem nodeAdds2_fst (g : Graph) (kk : Nat) :
    (nodeAdds g kk).map Prod.fst = expandedNames extract_base (g.nodes.map Prod.fst) kk := by
  unfold nodeAdds expandedNames
  rw [List.map_flatMap]
  exact congrArg _ (funext fun c => by rw [List.map_map, List.map_map]; rfl)

theorem nodesInit2_length (g : Graph) (kk : Nat) :
    (nodesInit g kk).length =
      kk * ((g.nodes.map (fun p => extract_base p.1)).toFinset).card := by
  have h0 : nodesInit g kk = foldAddNodes [] (nodeAdds g kk) := rfl
  rw [h0, foldAddNodes_length, nodeAdds2_fst, expandedNames_card]
  have hbase : (g.nodes.map Prod.fst).map extract_base
      = g.nodes.map (fun p => extract_base p.1) := by
    rw [List.map_map]
    rfl
  rw [hbase]

theorem nodesInit2_fst_mem {g : Graph} {kk : Nat} {x : String} :
    x ∈ (nodesInit g kk).map Prod.fst ↔
      x ∈ expandedNames extract_base (g.nodes.map Prod.fst) kk := by
  have h0 : nodesInit g kk = foldAddNodes [] (nodeAdds g kk) := rfl
  rw [h0, foldAddNodes_fst_mem, nodeAdds2_fst]
  simp

end UnfoldingFinal1

/-! ### Facts about quote stripping and normalization -/

theorem data_asString (l : List Char) : l.asString.data = l := rfl

theorem head?_dropWhile {p : Char → Bool} :
    ∀ (l : List Char) (c : Char), (l.dropWhile p).head? = some c → p c = false := by
  intro l
  induction l with
  | nil => intro c h; simp at h
  | cons x xs ih =>
    intro c h
    rw [List.dropWhile_cons] at h
    split at h
    · exact ih c h
    · rename_i hx
      have hxc : x = c := by simpa using h
      rw [← hxc]
      cases hpc : p x with
      | false => rfl
      | true => exact absurd hpc hx

theorem getLast?_dropWhile {p : Char → Bool} :
    ∀ (l : List Char) (c : Char), (l.dropWhile p).getLast? = some c →
      l.getLast? = some c := by
  intro l
  induction l with
  | nil => intro c h; simp at h
  | cons x xs ih =>
    intro c h
    rw [List.dropWhile_cons] at h
    split at h
    · have h2 := ih c h
      cases xs with
      | nil => simp at h2
      | cons y ys => rw [List.getLast?_cons_cons]; exact h2
    · exact h

theorem dropWhile_eq_self_of_head? {p : Char → Bool} (l : List Char)
    (h : ∀ c, l.head? = some c → p c = false) : l.dropWhile p = l := by
  cases l with
  | nil => rfl
  | cons x xs =>
    rw [List.dropWhile_cons, if_neg (by simp [h x rfl])]

theorem stripEnds_head? {p : Char → Bool} (l : List Char) (c : Char)
    (h : (stripEnds p l).head? = some c) : p c = false := by
  unfold stripEnds at h
  rw [List.head?_reverse] at h
  have h2 := getLast?_dropWhile _ c h
  rw [List.getLast?_reverse] at h2
  exact head?_dropWhile _ c h2

theorem stripEnds_getLast? {p : Char → Bool} (l : List Char) (c : Char)
    (h : (stripEnds p l).getLast? = some c) : p c = false := by
  unfold stripEnds at h
  rw [List.getLast?_reverse] at h
  exact head?_dropWhile _ c h

theorem stripEnds_wrap {p : Char → Bool} {a : Char} (ha : p a = true) (t : List Char)
    (h1 : ∀ c, t.head? = some c → p c = false)
    (h2 : ∀ c, t.getLast? = some c → p c = false) :
    stripEnds p (a :: (t ++ [a])) = t := by
  cases t with
  | nil =>
    unfold stripEnds
    simp [List.dropWhile_cons, ha]
  | cons x ts =>
    have hx : p x = false := h1 x rfl
    unfold stripEnds
    rw [List.dropWhile_cons, if_pos ha, List.cons_append, List.dropWhile_cons,
      if_neg (by simp [hx]), ← List.cons_append, List.reverse_append]
    have hrev : ((x :: ts).reverse).dropWhile p = (x :: ts).reverse := by
      apply dropWhile_eq_self_of_head?
      intro c hc
      rw [List.head?_reverse] at hc
      exact h2 c hc
    simp only [List.reverse_cons, List.reverse_nil, List.nil_append, List.singleton_append,
      List.dropWhile_cons, if_pos ha]
    rw [List.reverse_cons] at hrev
    rw [hrev]
    simp

theorem removeQuotes_quoteNormalize (s : String) :
    removeQuotes (quoteNormalize s) = removeQuotes s := by
  unfold quoteNormalize removeQuotes
  rw [String.data_append, String.data_append, data_asString]
  congr 1
  show List.filter _ ('"' :: (List.filter _ s.data ++ ['"'])) = List.filter _ s.data
  rw [List.filter_cons, List.filter_append]
  simp [List.filter_filter]

theorem stripQuotes_quoteNormalizeStrip (s : String) :
    stripQuotes (quoteNormalizeStrip s) = stripQuotes s := by
  unfold quoteNormalizeStrip stripQuotes
  congr 1
  rw [String.data_append, String.data_append, data_asString]
  show stripChars '"' ('"' :: (stripChars '"' s.data ++ ['"'])) = stripChars '"' s.data
  unfold stripChars
  apply stripEnds_wrap (by decide)
  · intro c hc
    exact stripEnds_head? _ c hc
  · intro c hc
    exact stripEnds_getLast? _ c hc

/-- Claim C9: the label quote-normalization step (strip existing double-quote
characters, re-wrap in a single pair of double quotes) is idempotent, both in
its `replace`-based form (`unfolding_final_1.py` lines 59-61) and in its
`strip`-based form (`unfolding_final.py` lines 97-99): applying it twice
yields the same string as applying it once, for every string. -/
theorem spec_c9 (s : String) :
    quoteNormalize (quoteNormalize s) = quoteNormalize s ∧
    quoteNormalizeStrip (quoteNormalizeStrip s) = quoteNormalizeStrip s := by
  constructor
  · show "\"" ++ removeQuotes (quoteNormalize s) ++ "\"" = quoteNormalize s
    rw [removeQuotes_quoteNormalize]
    rfl
  · show "\"" ++ stripQuotes (quoteNormalizeStrip s) ++ "\"" = quoteNormalizeStrip s
    rw [stripQuotes_quoteNormalizeStrip]
    rfl

/-- Claim C5: for every graph, both variants fail with the configuration error
(`ValueError("k must be a positive integer")`) whenever `k < 1` or `k` is not
an `int`; the result is the error alone, so no output graph is constructed. -/
theorem spec_c5 (g : Graph) (k : PyNum)
    (h : k.lt1 = true ∨ k.isInstInt = false) :
    UnfoldingFinal.unfold_graph g k = .error .configurationError ∧
    UnfoldingFinal1.unfold_graph g k = .error .configurationError := by
  have hcond : (k.lt1 || !k.isInstInt) = true := by
    rcases h with h | h <;> simp [h]
  constructor
  · unfold UnfoldingFinal.unfold_graph
    rw [hcond]
    simp
  · unfold UnfoldingFinal1.unfold_graph
    rw [hcond]
    simp

/-- Witness for C5: `k = 0`, `k = -1` and `k = 1.5` are all rejected. -/
theorem spec_c5_witness :
    UnfoldingFinal.unfold_graph ⟨[], []⟩ (.int 0) = .error .configurationError ∧
    UnfoldingFinal1.unfold_graph ⟨[], []⟩ (.int (-1)) = .error .configurationError ∧
    UnfoldingFinal.unfold_graph ⟨[], []⟩ (.float (3 / 2)) = .error .configurationError :=
  ⟨(spec_c5 ⟨[], []⟩ (.int 0) (Or.inl (by decide))).1,
   (spec_c5 ⟨[], []⟩ (.int (-1)) (Or.inl (by decide))).2,
   (spec_c5 ⟨[], []⟩ (.float (3 / 2)) (Or.inr (by decide))).1⟩

/-- Claim C1: for every edge with derived delta `d` and every source cycle
`c < k`, the generated edge leaves the copy `(base u, c)` and arrives at the
copy `(base v, (c + d) mod k)`, in both variants (in variant 2 the derived
delta is `deltaOf`); in particular for `k = 1` the arrival cycle is 0
regardless of `d`. -/
theorem spec_c1 (e : Edge) (c kk : Nat) (hc : c < kk) :
    (∀ d : Int, UnfoldingFinal.deriveDelta e = .ok d →
      UnfoldingFinal.processEdge e c kk =
        .ok ⟨nodeName (UnfoldingFinal.baseName e.src) c,
             nodeName (UnfoldingFinal.baseName e.dst) ((c + d.toNat) % kk),
             UnfoldingFinal.edgeAttrs e⟩) ∧
    (∀ cset : List (String × String),
      UnfoldingFinal1.processEdge cset e c kk =
        .ok ⟨nodeName (UnfoldingFinal1.extract_base e.src) c,
             nodeName (UnfoldingFinal1.extract_base e.dst)
               ((c + UnfoldingFinal1.deltaOf cset e) % kk),
             UnfoldingFinal1.edgeAttrsC cset e c kk⟩) ∧
    (kk = 1 → ∀ d : Int, UnfoldingFinal.deriveDelta e = .ok d →
      UnfoldingFinal.processEdge e c kk =
        .ok ⟨nodeName (UnfoldingFinal.baseName e.src) c,
             nodeName (UnfoldingFinal.baseName e.dst) 0,
             UnfoldingFinal.edgeAttrs e⟩) := by
  refine ⟨fun d hd => UnfoldingFinal.processEdge_ok_of_delta hd c kk hc,
    fun cset => UnfoldingFinal1.processEdge2_ok cset e c kk hc,
    fun hk1 d hd => ?_⟩
  rw [UnfoldingFinal.processEdge_ok_of_delta hd c kk hc]
  subst hk1
  simp [Nat.mod_one]

/-- Witness for C1: the edge `A -> B` with label `"2"` at cycle 0 and `k = 1`
arrives at cycle `(0 + 2) mod 1 = 0`. -/
theorem spec_c1_witness :
    UnfoldingFinal.processEdge ⟨"A", "B", [("label", "2")]⟩ 0 1 =
      .ok ⟨nodeName (UnfoldingFinal.baseName "A") 0,
           nodeName (UnfoldingFinal.baseName "B") 0,
           UnfoldingFinal.edgeAttrs ⟨"A", "B", [("label", "2")]⟩⟩ :=
  (spec_c1 ⟨"A", "B", [("label", "2")]⟩ 0 1 (by decide)).2.2 rfl 2 (by decide)

/-- Claim C6: under the explicit-label policy, a present but unparseable label
fails with `InvalidLabelError`, a parsed negative value fails with
`NegativeDeltaError`, an absent label means delta 0 (a defined default) and
the generated edge stays in the same cycle; moreover a successful unfolding
run implies that every edge's label parsed to a non-negative value. -/
theorem spec_c6 (g : Graph) (e : Edge) (c kk : Nat) :
    (∀ lab, List.lookup "label" e.attrs = some lab →
      pyInt? (stripQuotes lab) = none →
      UnfoldingFinal.processEdge e c kk = .error .invalidLabelError) ∧
    (∀ lab d, List.lookup "label" e.attrs = some lab →
      pyInt? (stripQuotes lab) = some d → d < 0 →
      UnfoldingFinal.processEdge e c kk = .error .negativeDeltaError) ∧
    (List.lookup "label" e.attrs = none →
      UnfoldingFinal.deriveDelta e = .ok 0 ∧
      UnfoldingFinal.processEdge e c kk =
        .ok ⟨nodeName (UnfoldingFinal.baseName e.src) c,
             nodeName (UnfoldingFinal.baseName e.dst) c,
             UnfoldingFinal.copyOther e.attrs⟩) ∧
    (∀ (kp : Nat) (out : Graph), 1 ≤ kp → e ∈ g.edges →
      UnfoldingFinal.unfold_graph g (.int kp) = .ok out →
      ∀ lab, List.lookup "label" e.attrs = some lab →
        ∃ d, pyInt? (stripQuotes lab) = some d ∧ 0 ≤ d) := by
  refine ⟨fun lab hl hp => UnfoldingFinal.processEdge_invalid hl hp c kk,
    fun lab d hl hp hd => UnfoldingFinal.processEdge_negative hl hp hd c kk,
    fun hl => ⟨by simp [UnfoldingFinal.deriveDelta, hl],
      UnfoldingFinal.processEdge_nolabel hl c kk⟩,
    fun kp out hkp he hok lab hl => ?_⟩
  rw [UnfoldingFinal.unfold_graph_int g hkp] at hok
  cases hts : mapExcept (fun ec => UnfoldingFinal.processEdge ec.1 ec.2 kp)
      (UnfoldingFinal.pairs g kp) with
  | error err => rw [hts] at hok; simp at hok
  | ok ts =>
    have hmem : (e, 0) ∈ UnfoldingFinal.pairs g kp :=
      UnfoldingFinal.mem_pairs.mpr ⟨he, by omega⟩
    obtain ⟨t, _, hft⟩ := mapExcept_ok_mem hts (e, 0) hmem
    obtain ⟨d, hd, hdnn⟩ := UnfoldingFinal.processEdge_ok_derive hft
    refine ⟨d, ?_, hdnn⟩
    cases hp : pyInt? (stripQuotes lab) with
    | none =>
      simp [UnfoldingFinal.deriveDelta, hl, hp] at hd
    | some d' =>
      by_cases hneg : d' < 0
      · simp [UnfoldingFinal.deriveDelta, hl, hp, hneg] at hd
      · simp only [UnfoldingFinal.deriveDelta, hl, hp, if_neg hneg,
          Except.ok.injEq] at hd
        rw [hd]

/-- Witness for C6: label `"abc"` is invalid, label `"-2"` is negative, and an
edge without a label stays in its cycle. -/
theorem spec_c6_witness :
    UnfoldingFinal.processEdge ⟨"A", "B", [("label", "abc")]⟩ 0 2 =
      .error .invalidLabelError ∧
    UnfoldingFinal.processEdge ⟨"A", "B", [("label", "-2")]⟩ 0 2 =
      .error .negativeDeltaError ∧
    UnfoldingFinal.processEdge ⟨"A", "B", [("color", "red")]⟩ 1 2 =
      .ok ⟨nodeName (UnfoldingFinal.baseName "A") 1,
           nodeName (UnfoldingFinal.baseName "B") 1,
           UnfoldingFinal.copyOther [("color", "red")]⟩ :=
  ⟨(spec_c6 ⟨[], []⟩ ⟨"A", "B", [("label", "abc")]⟩ 0 2).1 "abc" (by decide) (by decide),
   (spec_c6 ⟨[], []⟩ ⟨"A", "B", [("label", "-2")]⟩ 0 2).2.1 "-2" (-2) (by decide)
     (by decide) (by decide),
   ((spec_c6 ⟨[], []⟩ ⟨"A", "B", [("color", "red")]⟩ 1 2).2.2.1 (by decide)).2⟩

/-- Claim C7: under the constraint-flag policy a non-constraint edge always
stays in its source cycle (`dst_cycle = c`), so the assertion modelled by
`InvariantViolationError` is unreachable: `unfold_graph` of
`unfolding_final_1.py` never returns that error, for any graph and any `k`. -/
theorem spec_c7 :
    (∀ (cset : List (String × String)) (e : Edge) (c kk : Nat), c < kk →
      cset.contains (e.src, e.dst) = false →
      UnfoldingFinal1.processEdge cset e c kk =
        .ok ⟨nodeName (UnfoldingFinal1.extract_base e.src) c,
             nodeName (UnfoldingFinal1.extract_base e.dst) c,
             UnfoldingFinal1.edgeAttrsC cset e c kk⟩) ∧
    (∀ (g : Graph) (k : PyNum),
      UnfoldingFinal1.unfold_graph g k ≠ .error .invariantViolationError) := by
  constructor
  · intro cset e c kk hc hcc
    have hnm : (e.src, e.dst) ∉ cset := fun hm => by
      rw [contains_iff_mem_pair.mpr hm] at hcc
      cases hcc
    have h0 : UnfoldingFinal1.deltaOf cset e = 0 := by
      simp [UnfoldingFinal1.deltaOf, hcc, hnm]
    have h2 : (c + UnfoldingFinal1.deltaOf cset e) % kk = c := by
      rw [h0, Nat.add_zero, Nat.mod_eq_of_lt hc]
    rw [UnfoldingFinal1.processEdge2_ok cset e c kk hc, h2]
  · intro g k
    cases k with
    | float q =>
      unfold UnfoldingFinal1.unfold_graph
      simp [PyNum.isInstInt]
    | int n =>
      by_cases hn : n < 1
      · unfold UnfoldingFinal1.unfold_graph
        have hcond : (PyNum.lt1 (.int n) || !(PyNum.isInstInt (.int n))) = true := by
          simp [PyNum.lt1, PyNum.isInstInt, hn]
        rw [hcond]
        simp
      · have hkk : 1 ≤ n.toNat := by omega
        have hn' : (PyNum.int n) = .int ((n.toNat : Nat) : Int) := by
          congr 1
          omega
        rw [hn', UnfoldingFinal1.unfold_graph_int2 g hkk]
        have hall : ∀ ec ∈ UnfoldingFinal1.pairs g n.toNat, ∃ t,
            UnfoldingFinal1.processEdge (UnfoldingFinal1.constraintEdges g)
              ec.1 ec.2 n.toNat = .ok t := by
          rintro ⟨e, c⟩ hm
          rw [UnfoldingFinal1.mem_pairs2] at hm
          exact ⟨_, UnfoldingFinal1.processEdge2_ok _ e c _ hm.2⟩
        obtain ⟨ts, hts⟩ := mapExcept_ok_of_forall hall
        rw [hts]
        simp

/-- Witness for C7: a concrete non-constraint edge at cycle 0 with `k = 2`
stays in cycle 0, and a concrete run returns no invariant violation. -/
theorem spec_c7_witness :
    UnfoldingFinal1.processEdge [] ⟨"X", "Y", []⟩ 0 2 =
      .ok ⟨nodeName (UnfoldingFinal1.extract_base "X") 0,
           nodeName (UnfoldingFinal1.extract_base "Y") 0,
           UnfoldingFinal1.edgeAttrsC [] ⟨"X", "Y", []⟩ 0 2⟩ ∧
    UnfoldingFinal1.unfold_graph ⟨[("X", []), ("Y", [])], [⟨"X", "Y", []⟩]⟩ (.int 2) ≠
      .error .invariantViolationError :=
  ⟨spec_c7.1 [] ⟨"X", "Y", []⟩ 0 2 (by decide) (by decide),
   spec_c7.2 ⟨[("X", []), ("Y", [])], [⟨"X", "Y", []⟩]⟩ (.int 2)⟩

/-- Claim C3: under the constraint-flag policy an edge of the graph is treated
as a period-crossing constraint edge precisely when its `constraint` attribute
equals the string `"false"` (given the `DiGraph` invariant that edge keys are
unique), and the derived delta is 1 for such edges and 0 for every other
edge. The constraint set `constraintEdges g` is by definition a function of
the original graph alone, computed before any rewiring. -/
theorem spec_c3 (g : Graph) (e : Edge) (he : e ∈ g.edges)
    (hnd : (g.edges.map (fun e => (e.src, e.dst))).Nodup) :
    ((UnfoldingFinal1.constraintEdges g).contains (e.src, e.dst) = true ↔
      List.lookup "constraint" e.attrs = some "false") ∧
    (UnfoldingFinal1.deltaOf (UnfoldingFinal1.constraintEdges g) e =
      if List.lookup "constraint" e.attrs = some "false" then 1 else 0) := by
  have hiff : (UnfoldingFinal1.constraintEdges g).contains (e.src, e.dst) = true ↔
      List.lookup "constraint" e.attrs = some "false" :=
    ⟨fun h => UnfoldingFinal1.constraint_of_contains he hnd h,
     fun h => UnfoldingFinal1.contains_constraintEdges he h⟩
  refine ⟨hiff, ?_⟩
  by_cases hc : List.lookup "constraint" e.attrs = some "false"
  · rw [if_pos hc]
    have htrue := hiff.mpr hc
    have hm := contains_iff_mem_pair.mp htrue
    simp [UnfoldingFinal1.deltaOf, htrue, hm]
  · rw [if_neg hc]
    have hfalse : (UnfoldingFinal1.constraintEdges g).contains (e.src, e.dst) = false := by
      cases hcc : (UnfoldingFinal1.constraintEdges g).contains (e.src, e.dst) with
      | false => rfl
      | true => exact absurd (hiff.mp hcc) hc
    have hnm : (e.src, e.dst) ∉ UnfoldingFinal1.constraintEdges g := fun hm => by
      rw [contains_iff_mem_pair.mpr hm] at hfalse
      cases hfalse
    simp [UnfoldingFinal1.deltaOf, hfalse, hnm]

/-- Witness for C3: in a graph with a `constraint="false"` edge and a plain
edge, the first is detected with delta 1 and the second is not, with delta 0. -/
theorem spec_c3_witness :
    ((UnfoldingFinal1.constraintEdges
        ⟨[], [⟨"X", "Y", [("constraint", "false")]⟩, ⟨"A", "B", []⟩]⟩).contains
      ("X", "Y") = true ↔
      List.lookup "constraint" [("constraint", "false")] = some "false") ∧
    (UnfoldingFinal1.deltaOf
      (UnfoldingFinal1.constraintEdges
        ⟨[], [⟨"X", "Y", [("constraint", "false")]⟩, ⟨"A", "B", []⟩]⟩)
      ⟨"A", "B", []⟩ =
      if List.lookup "constraint" ([] : AttrMap) = some "false" then 1 else 0) :=
  ⟨(spec_c3 ⟨[], [⟨"X", "Y", [("constraint", "false")]⟩, ⟨"A", "B", []⟩]⟩
      ⟨"X", "Y", [("constraint", "false")]⟩ (by decide) (by decide)).1,
   (spec_c3 ⟨[], [⟨"X", "Y", [("constraint", "false")]⟩, ⟨"A", "B", []⟩]⟩
      ⟨"A", "B", []⟩ (by decide) (by decide)).2⟩

theorem lookup_isSome_edgeAttrsC (cset : List (String × String)) (e : Edge) (c kk : Nat)
    (a : String) :
    (List.lookup a (UnfoldingFinal1.edgeAttrsC cset e c kk)).isSome =
      (List.lookup a (UnfoldingFinal1.retained (cset.contains (e.src, e.dst)) e.attrs c
        ((c + UnfoldingFinal1.deltaOf cset e) % kk) kk)).isSome :=
  UnfoldingFinal1.lookup_isSome_normalize _ a

/-- Claim C2: under the constraint-flag policy, for a constraint edge
(`constraint = "false"`) and `k ≥ 1`, each of the attributes `constraint`,
`color`, `label` is present on the generated instance with source cycle `c`
precisely when `c = k - 1` (the instance whose destination cycle is 0) and the
attribute was present on the original edge; on every other instance the three
attributes are stripped. -/
theorem spec_c2 (g : Graph) (e : Edge) (c kk : Nat) (hc : c < kk)
    (he : e ∈ g.edges) (hcon : List.lookup "constraint" e.attrs = some "false") :
    ∀ t, UnfoldingFinal1.processEdge (UnfoldingFinal1.constraintEdges g) e c kk = .ok t →
      (((c + UnfoldingFinal1.deltaOf (UnfoldingFinal1.constraintEdges g) e) % kk = 0) ↔
        c = kk - 1) ∧
      (∀ a, a = "constraint" ∨ a = "color" ∨ a = "label" →
        ((List.lookup a t.attrs).isSome = true ↔
          (c = kk - 1 ∧ (List.lookup a e.attrs).isSome = true))) := by
  intro t ht
  have hcc : (UnfoldingFinal1.constraintEdges g).contains (e.src, e.dst) = true :=
    UnfoldingFinal1.contains_constraintEdges he hcon
  have hm := contains_iff_mem_pair.mp hcc
  have h1 : UnfoldingFinal1.deltaOf (UnfoldingFinal1.constraintEdges g) e = 1 := by
    simp [UnfoldingFinal1.deltaOf, hcc, hm]
  have hdst : (c + UnfoldingFinal1.deltaOf (UnfoldingFinal1.constraintEdges g) e) % kk = 0
      ↔ c = kk - 1 := by
    rw [h1]
    constructor
    · intro h
      rcases Nat.lt_or_ge (c + 1) kk with hlt | hge
      · rw [Nat.mod_eq_of_lt hlt] at h
        omega
      · omega
    · intro h
      subst h
      have hkke : kk - 1 + 1 = kk := by omega
      rw [hkke, Nat.mod_self]
  refine ⟨hdst, ?_⟩
  rw [UnfoldingFinal1.processEdge2_ok (UnfoldingFinal1.constraintEdges g) e c kk hc] at ht
  simp only [Except.ok.injEq] at ht
  subst ht
  intro a ha
  simp only
  rw [lookup_isSome_edgeAttrsC]
  by_cases hckk : c = kk - 1
  · have hdst0 : (c + UnfoldingFinal1.deltaOf (UnfoldingFinal1.constraintEdges g) e) % kk = 0 :=
      hdst.mpr hckk
    rw [show UnfoldingFinal1.retained
        ((UnfoldingFinal1.constraintEdges g).contains (e.src, e.dst)) e.attrs c
        ((c + UnfoldingFinal1.deltaOf (UnfoldingFinal1.constraintEdges g) e) % kk) kk
        = e.attrs from by
      unfold UnfoldingFinal1.retained
      rw [hcc, if_pos rfl, if_pos ⟨hckk, hdst0⟩]]
    simp [hckk]
  · have hcond : ¬(c = kk - 1 ∧
        (c + UnfoldingFinal1.deltaOf (UnfoldingFinal1.constraintEdges g) e) % kk = 0) :=
      fun hx => hckk hx.1
    rw [show UnfoldingFinal1.retained
        ((UnfoldingFinal1.constraintEdges g).contains (e.src, e.dst)) e.attrs c
        ((c + UnfoldingFinal1.deltaOf (UnfoldingFinal1.constraintEdges g) e) % kk) kk
        = delAttr (delAttr (delAttr e.attrs "constraint") "color") "label" from by
      unfold UnfoldingFinal1.retained
      rw [hcc, if_pos rfl, if_neg hcond]]
    rw [UnfoldingFinal1.lookup_retained_strip e.attrs a ha]
    simp [hckk]

/-- Witness for C2: for `k = 3` and the constraint edge `X -> Y` carrying all
three attributes, the instance at `c = 2` has destination cycle 0 and retains
the attributes (relative to original presence). -/
theorem spec_c2_witness :
    ((2 + UnfoldingFinal1.deltaOf
        (UnfoldingFinal1.constraintEdges
          ⟨[], [⟨"X", "Y", [("constraint", "false"), ("color", "red"), ("label", "1")]⟩]⟩)
        ⟨"X", "Y", [("constraint", "false"), ("color", "red"), ("label", "1")]⟩) % 3 = 0 ↔
      (2 : Nat) = 3 - 1) ∧
    (∀ a, a = "constraint" ∨ a = "color" ∨ a = "label" →
      ((List.lookup a (UnfoldingFinal1.edgeAttrsC
          (UnfoldingFinal1.constraintEdges
            ⟨[], [⟨"X", "Y", [("constraint", "false"), ("color", "red"), ("label", "1")]⟩]⟩)
          ⟨"X", "Y", [("constraint", "false"), ("color", "red"), ("label", "1")]⟩
          2 3)).isSome = true ↔
        ((2 : Nat) = 3 - 1 ∧
          (List.lookup a [("constraint", "false"), ("color", "red"), ("label", "1")]).isSome
            = true))) := by
  have h := spec_c2
    ⟨[], [⟨"X", "Y", [("constraint", "false"), ("color", "red"), ("label", "1")]⟩]⟩
    ⟨"X", "Y", [("constraint", "false"), ("color", "red"), ("label", "1")]⟩
    2 3 (by decide) (by decide) (by decide)
    ⟨nodeName (UnfoldingFinal1.extract_base "X") 2,
     nodeName (UnfoldingFinal1.extract_base "Y")
       ((2 + UnfoldingFinal1.deltaOf
          (UnfoldingFinal1.constraintEdges
            ⟨[], [⟨"X", "Y", [("constraint", "false"), ("color", "red"), ("label", "1")]⟩]⟩)
          ⟨"X", "Y", [("constraint", "false"), ("color", "red"), ("label", "1")]⟩) % 3),
     UnfoldingFinal1.edgeAttrsC
       (UnfoldingFinal1.constraintEdges
         ⟨[], [⟨"X", "Y", [("constraint", "false"), ("color", "red"), ("label", "1")]⟩]⟩)
       ⟨"X", "Y", [("constraint", "false"), ("color", "red"), ("label", "1")]⟩ 2 3⟩
    (UnfoldingFinal1.processEdge2_ok _ _ 2 3 (by decide))
  exact h

/-! ### Node attribute preservation (variant 1) and node counting -/

theorem updateAttrs_nil (m : AttrMap) : updateAttrs m [] = m := rfl

theorem addNodeAttrs_nil_snd {ns : List (String × AttrMap)} {nm : String}
    (h : ∀ p ∈ ns, p.2 = ([] : AttrMap)) :
    ∀ p ∈ addNodeAttrs ns nm [], p.2 = ([] : AttrMap) := by
  unfold addNodeAttrs
  split
  · intro p hp
    rw [List.mem_map] at hp
    obtain ⟨q, hq, rfl⟩ := hp
    by_cases hqnm : q.1 = nm
    · rw [if_pos hqnm]
      show updateAttrs q.2 [] = []
      rw [updateAttrs_nil]
      exact h q hq
    · rw [if_neg hqnm]
      exact h q hq
  · intro p hp
    rcases List.mem_append.mp hp with h1 | h1
    · exact h p h1
    · simp only [List.mem_singleton] at h1
      rw [h1]

theorem ensureNode_nil_snd {ns : List (String × AttrMap)} {nm : String}
    (h : ∀ p ∈ ns, p.2 = ([] : AttrMap)) :
    ∀ p ∈ ensureNode ns nm, p.2 = ([] : AttrMap) := by
  unfold ensureNode
  split
  · exact h
  · intro p hp
    rcases List.mem_append.mp hp with h1 | h1
    · exact h p h1
    · simp only [List.mem_singleton] at h1
      rw [h1]

theorem foldAddNodes_nil_snd :
    ∀ (L : List String) (ns : List (String × AttrMap)),
      (∀ p ∈ ns, p.2 = ([] : AttrMap)) →
      ∀ p ∈ L.foldl (fun acc nm => addNodeAttrs acc nm []) ns, p.2 = ([] : AttrMap) := by
  intro L
  induction L with
  | nil => intro ns h; exact h
  | cons nm rest ih =>
    intro ns h
    exact ih _ (addNodeAttrs_nil_snd h)

theorem foldApply_nil_snd :
    ∀ (ts : List Triple) (g0 : Graph), (∀ p ∈ g0.nodes, p.2 = ([] : AttrMap)) →
      ∀ p ∈ (ts.foldl applyTriple g0).nodes, p.2 = ([] : AttrMap) := by
  intro ts
  induction ts with
  | nil => intro g0 h; exact h
  | cons t rest ih =>
    intro g0 h
    rw [List.foldl_cons]
    exact ih _ (ensureNode_nil_snd (ensureNode_nil_snd h))

/-- Claim C10: in variant 1 (`unfolding_final.py`), `unfold_graph` attaches no
attributes to the generated nodes: every node of a successfully returned
unfolded graph has an empty attribute map, regardless of the attributes on the
original nodes. -/
theorem spec_c10 (g : Graph) (k : PyNum) (out : Graph)
    (h : UnfoldingFinal.unfold_graph g k = .ok out) :
    ∀ p ∈ out.nodes, p.2 = ([] : AttrMap) := by
  cases k with
  | float q =>
    unfold UnfoldingFinal.unfold_graph at h
    simp [PyNum.isInstInt] at h
  | int n =>
    by_cases hn : n < 1
    · unfold UnfoldingFinal.unfold_graph at h
      have hcond : (PyNum.lt1 (.int n) || !(PyNum.isInstInt (.int n))) = true := by
        simp [PyNum.lt1, PyNum.isInstInt, hn]
      rw [hcond] at h
      simp at h
    · have hkk : 1 ≤ n.toNat := by omega
      have hn' : (PyNum.int n) = .int ((n.toNat : Nat) : Int) := by
        congr 1
        omega
      rw [hn', UnfoldingFinal.unfold_graph_int g hkk] at h
      cases hts : mapExcept (fun ec => UnfoldingFinal.processEdge ec.1 ec.2 n.toNat)
          (UnfoldingFinal.pairs g n.toNat) with
      | error err =>
        rw [hts] at h
        simp at h
      | ok ts =>
        rw [hts] at h
        simp only [Except.ok.injEq] at h
        subst h
        apply foldApply_nil_snd
        show ∀ p ∈ UnfoldingFinal.nodesInit g n.toNat, p.2 = ([] : AttrMap)
        unfold UnfoldingFinal.nodesInit
        exact foldAddNodes_nil_snd _ [] (by simp)

/-- Witness for C10: a node carrying a label in the input yields an unfolded
node with an empty attribute map. -/
theorem spec_c10_witness :
    (Graph.mk [("A_0", [])] []).nodes.all (fun p => p.2.isEmpty) = true := by
  have h := spec_c10 ⟨[("A", [("label", "x")])], []⟩ (.int 1) ⟨[("A_0", [])], []⟩ (by decide)
  rw [List.all_eq_true]
  intro p hp
  simp [h p hp]

theorem v1_mem_nodesInit (g : Graph) (kk : Nat) {nm : String} {c : Nat}
    (hnm : nm ∈ g.nodes.map Prod.fst) (hc : c < kk) :
    nodeName (UnfoldingFinal.baseName nm) c ∈
      (UnfoldingFinal.nodesInit g kk).map Prod.fst := by
  rw [UnfoldingFinal.nodesInit_fst_mem, UnfoldingFinal.nodeAdds_eq_expanded]
  exact mem_expandedNames.mpr ⟨c, hc, nm, hnm, rfl⟩

theorem v2_mem_nodesInit (g : Graph) (kk : Nat) {nm : String} {c : Nat}
    (hnm : nm ∈ g.nodes.map Prod.fst) (hc : c < kk) :
    nodeName (UnfoldingFinal1.extract_base nm) c ∈
      (UnfoldingFinal1.nodesInit g kk).map Prod.fst := by
  rw [UnfoldingFinal1.nodesInit2_fst_mem]
  exact mem_expandedNames.mpr ⟨c, hc, nm, hnm, rfl⟩

/-- Claim C4: for both variants, for every `k ≥ 1` and every input graph whose
edge endpoints are nodes of the graph (the `DiGraph` invariant), the unfolded
node count equals `k` times the number of distinct base identities of the
input nodes, computed with the variant's identity resolver. -/
theorem spec_c4 (g : Graph) (kk : Nat) (hk : 1 ≤ kk)
    (hclosed : ∀ e ∈ g.edges, e.src ∈ g.nodes.map Prod.fst ∧
      e.dst ∈ g.nodes.map Prod.fst) :
    (∀ out, UnfoldingFinal.unfold_graph g (.int kk) = .ok out →
      out.nodes.length =
        kk * ((g.nodes.map (fun p => UnfoldingFinal.baseName p.1)).dedup).length) ∧
    (∀ out, UnfoldingFinal1.unfold_graph g (.int kk) = .ok out →
      out.nodes.length =
        kk * ((g.nodes.map (fun p => UnfoldingFinal1.extract_base p.1)).dedup).length) := by
  constructor
  · intro out h
    rw [UnfoldingFinal.unfold_graph_int g hk] at h
    cases hts : mapExcept (fun ec => UnfoldingFinal.processEdge ec.1 ec.2 kk)
        (UnfoldingFinal.pairs g kk) with
    | error err =>
      rw [hts] at h
      simp at h
    | ok ts =>
      rw [hts] at h
      simp only [Except.ok.injEq] at h
      subst h
      rw [foldApply_nodes ts _ ?_]
      · rw [show (Graph.mk (UnfoldingFinal.nodesInit g kk) []).nodes
            = UnfoldingFinal.nodesInit g kk from rfl,
          UnfoldingFinal.nodesInit_length, List.card_toFinset]
      · intro t htts
        obtain ⟨⟨e, c⟩, hec, hft⟩ := mapExcept_ok_mem_rev hts t htts
        rw [UnfoldingFinal.mem_pairs] at hec
        obtain ⟨hsrc, ⟨dc, hdc, hdst⟩, _⟩ :=
          UnfoldingFinal.processEdge_ok_shape hec.2 hft
        constructor
        · rw [hsrc]
          exact v1_mem_nodesInit g kk (hclosed e hec.1).1 hec.2
        · rw [hdst]
          exact v1_mem_nodesInit g kk (hclosed e hec.1).2 hdc
  · intro out h
    rw [UnfoldingFinal1.unfold_graph_int2 g hk] at h
    cases hts : mapExcept
        (fun ec => UnfoldingFinal1.processEdge (UnfoldingFinal1.constraintEdges g)
          ec.1 ec.2 kk) (UnfoldingFinal1.pairs g kk) with
    | error err =>
      rw [hts] at h
      simp at h
    | ok ts =>
      rw [hts] at h
      simp only [Except.ok.injEq] at h
      subst h
      rw [foldApply_nodes ts _ ?_]
      · rw [show (Graph.mk (UnfoldingFinal1.nodesInit g kk) []).nodes
            = UnfoldingFinal1.nodesInit g kk from rfl,
          UnfoldingFinal1.nodesInit2_length, List.card_toFinset]
      · intro t htts
        obtain ⟨⟨e, c⟩, hec, hft⟩ := mapExcept_ok_mem_rev hts t htts
        rw [UnfoldingFinal1.mem_pairs2] at hec
        rw [UnfoldingFinal1.processEdge2_ok _ e c kk hec.2] at hft
        simp only [Except.ok.injEq] at hft
        subst hft
        constructor
        · exact v2_mem_nodesInit g kk (hclosed e hec.1).1 hec.2
        · exact v2_mem_nodesInit g kk (hclosed e hec.1).2
            (Nat.mod_lt _ (by omega))

/-- Witness for C4: two nodes `A_0`, `A_1` with a common base `A` and one edge
unfold with `k = 2` into `2 × 1` nodes in variant 2, and a two-node graph
unfolds into `2 × 2` nodes in variant 1. -/
theorem spec_c4_witness :
    (Graph.mk [("A_0", []), ("B_0", []), ("A_1", []), ("B_1", [])]
        [⟨"A_0", "B_1", [("label", "1")]⟩, ⟨"A_1", "B_0", [("label", "1")]⟩]).nodes.length =
      2 * (((Graph.mk [("A", []), ("B", [])] [⟨"A", "B", [("label", "1")]⟩]).nodes.map
        (fun p => UnfoldingFinal.baseName p.1)).dedup).length :=
  (spec_c4 ⟨[("A", []), ("B", [])], [⟨"A", "B", [("label", "1")]⟩]⟩ 2 (by decide)
      (by decide)).1
    ⟨[("A_0", []), ("B_0", []), ("A_1", []), ("B_1", [])],
     [⟨"A_0", "B_1", [("label", "1")]⟩, ⟨"A_1", "B_0", [("label", "1")]⟩]⟩
    (by decide)

/-- Claim C8: for every input graph, every `k ≥ 1` and every input edge, on a
successful run the edge generates exactly `k` output edges, one per source
cycle `c ∈ [0,k)`: the per-edge generation list has length `k`, its entries
have pairwise distinct source names (one per cycle, hence `k` distinct
edges), every generated (source, destination) pair is an edge of the unfolded
graph, and each instance carries its own independently computed attribute
map (`edgeAttrs e` in variant 1, `edgeAttrsC cset e c k` in variant 2). -/
theorem spec_c8 (g : Graph) (kk : Nat) (hk : 1 ≤ kk) (e : Edge) (he : e ∈ g.edges) :
    (∀ out, UnfoldingFinal.unfold_graph g (.int kk) = .ok out →
      ∃ l, mapExcept (fun c => UnfoldingFinal.processEdge e c kk) (List.range kk) = .ok l ∧
        l.length = kk ∧
        (l.map Triple.src).Nodup ∧
        (∀ t ∈ l, t.attrs = UnfoldingFinal.edgeAttrs e) ∧
        (∀ t ∈ l, (t.src, t.dst) ∈ edgeKeys out.edges)) ∧
    (∀ out, UnfoldingFinal1.unfold_graph g (.int kk) = .ok out →
      ∃ l, mapExcept (fun c => UnfoldingFinal1.processEdge
          (UnfoldingFinal1.constraintEdges g) e c kk) (List.range kk) = .ok l ∧
        l.length = kk ∧
        (l.map Triple.src).Nodup ∧
        (∀ (c : Nat) (h2 : c < l.length), (l.get ⟨c, h2⟩).attrs =
          UnfoldingFinal1.edgeAttrsC (UnfoldingFinal1.constraintEdges g) e c kk) ∧
        (∀ t ∈ l, (t.src, t.dst) ∈ edgeKeys out.edges)) := by
  constructor
  · intro out h
    rw [UnfoldingFinal.unfold_graph_int g hk] at h
    cases hts : mapExcept (fun ec => UnfoldingFinal.processEdge ec.1 ec.2 kk)
        (UnfoldingFinal.pairs g kk) with
    | error err =>
      rw [hts] at h
      simp at h
    | ok ts =>
      rw [hts] at h
      simp only [Except.ok.injEq] at h
      subst h
      have hallc : ∀ c ∈ List.range kk, ∃ t,
          UnfoldingFinal.processEdge e c kk = .ok t := by
        intro c hc
        rw [List.mem_range] at hc
        obtain ⟨t, _, hft⟩ := mapExcept_ok_mem hts (e, c)
          (UnfoldingFinal.mem_pairs.mpr ⟨he, hc⟩)
        exact ⟨t, hft⟩
      obtain ⟨l, hml⟩ := mapExcept_ok_of_forall hallc
      have hlen : l.length = kk := by
        rw [mapExcept_ok_length hml, List.length_range]
      refine ⟨l, hml, hlen, ?_, ?_, ?_⟩
      · have hsrc_eq : l.map Triple.src =
            (List.range kk).map (fun c => nodeName (UnfoldingFinal.baseName e.src) c) := by
          apply List.ext_getElem
          · simp [hlen]
          · intro i h1 h2
            simp only [List.getElem_map, List.getElem_range]
            have h1' : i < l.length := by simpa using h1
            have hik : i < kk := by
              rw [List.length_map, List.length_range] at h2
              exact h2
            have hfi := mapExcept_ok_getElem hml i (by simpa using hik) h1'
            rw [List.get_eq_getElem, List.get_eq_getElem, List.getElem_range] at hfi
            exact (UnfoldingFinal.processEdge_ok_shape hik hfi).1
        rw [hsrc_eq]
        exact List.Nodup.map (fun c1 c2 hcc => (nodeName_injective _ _ _ _ hcc).2)
          (List.nodup_range kk)
      · intro t htl
        obtain ⟨c, hcr, hft⟩ := mapExcept_ok_mem_rev hml t htl
        rw [List.mem_range] at hcr
        exact (UnfoldingFinal.processEdge_ok_shape hcr hft).2.2
      · intro t htl
        obtain ⟨c, hcr, hft⟩ := mapExcept_ok_mem_rev hml t htl
        rw [List.mem_range] at hcr
        obtain ⟨t', ht's, hft'⟩ := mapExcept_ok_mem hts (e, c)
          (UnfoldingFinal.mem_pairs.mpr ⟨he, hcr⟩)
        have hdet : Except.ok (ε := Err) t = Except.ok t' := hft.symm.trans hft'
        simp only [Except.ok.injEq] at hdet
        subst hdet
        exact foldApply_key_mem ts _ t ht's
  · intro out h
    rw [UnfoldingFinal1.unfold_graph_int2 g hk] at h
    cases hts : mapExcept
        (fun ec => UnfoldingFinal1.processEdge (UnfoldingFinal1.constraintEdges g)
          ec.1 ec.2 kk) (UnfoldingFinal1.pairs g kk) with
    | error err =>
      rw [hts] at h
      simp at h
    | ok ts =>
      rw [hts] at h
      simp only [Except.ok.injEq] at h
      subst h
      have hallc : ∀ c ∈ List.range kk, ∃ t,
          UnfoldingFinal1.processEdge (UnfoldingFinal1.constraintEdges g) e c kk
            = .ok t := by
        intro c hc
        rw [List.mem_range] at hc
        exact ⟨_, UnfoldingFinal1.processEdge2_ok _ e c kk hc⟩
      obtain ⟨l, hml⟩ := mapExcept_ok_of_forall hallc
      have hlen : l.length = kk := by
        rw [mapExcept_ok_length hml, List.length_range]
      have hget : ∀ (i : Nat) (hik : i < kk) (h2 : i < l.length),
          l.get ⟨i, h2⟩ = ⟨nodeName (UnfoldingFinal1.extract_base e.src) i,
            nodeName (UnfoldingFinal1.extract_base e.dst)
              ((i + UnfoldingFinal1.deltaOf (UnfoldingFinal1.constraintEdges g) e) % kk),
            UnfoldingFinal1.edgeAttrsC (UnfoldingFinal1.constraintEdges g) e i kk⟩ := by
        intro i hik h2
        have hfi := mapExcept_ok_getElem hml i (by simpa using hik) h2
        rw [List.get_eq_getElem, List.getElem_range] at hfi
        have := (UnfoldingFinal1.processEdge2_ok
          (UnfoldingFinal1.constraintEdges g) e i kk hik).symm.trans hfi
        simp only [Except.ok.injEq] at this
        exact this.symm
      refine ⟨l, hml, hlen, ?_, ?_, ?_⟩
      · have hsrc_eq : l.map Triple.src =
            (List.range kk).map
              (fun c => nodeName (UnfoldingFinal1.extract_base e.src) c) := by
          apply List.ext_getElem
          · simp [hlen]
          · intro i h1 h2
            simp only [List.getElem_map, List.getElem_range]
            have h1' : i < l.length := by simpa using h1
            have hik : i < kk := by
              rw [List.length_map, List.length_range] at h2
              exact h2
            have := hget i hik h1'
            rw [List.get_eq_getElem] at this
            rw [this]
        rw [hsrc_eq]
        exact List.Nodup.map (fun c1 c2 hcc => (nodeName_injective _ _ _ _ hcc).2)
          (List.nodup_range kk)
      · intro c h2
        have hck : c < kk := by
          rw [hlen] at h2
          exact h2
        rw [hget c hck h2]
      · intro t htl
        obtain ⟨c, hcr, hft⟩ := mapExcept_ok_mem_rev hml t htl
        rw [List.mem_range] at hcr
        obtain ⟨t', ht's, hft'⟩ := mapExcept_ok_mem hts (e, c)
          (UnfoldingFinal1.mem_pairs2.mpr ⟨he, hcr⟩)
        have hdet : Except.ok (ε := Err) t = Except.ok t' := hft.symm.trans hft'
        simp only [Except.ok.injEq] at hdet
        subst hdet
        exact foldApply_key_mem ts _ t ht's

/-- Witness for C8: the edge `A -> B` with label `"1"` and `k = 2` generates
exactly two output edges, `A_0 -> B_1` and `A_1 -> B_0`, both present in the
unfolded graph. -/
theorem spec_c8_witness :
    ∃ l, mapExcept (fun c => UnfoldingFinal.processEdge ⟨"A", "B", [("label", "1")]⟩ c 2)
        (List.range 2) = .ok l ∧
      l.length = 2 ∧
      (l.map Triple.src).Nodup ∧
      (∀ t ∈ l, t.attrs = UnfoldingFinal.edgeAttrs ⟨"A", "B", [("label", "1")]⟩) ∧
      (∀ t ∈ l, (t.src, t.dst) ∈ edgeKeys
        (Graph.mk [("A_0", []), ("B_0", []), ("A_1", []), ("B_1", [])]
          [⟨"A_0", "B_1", [("label", "1")]⟩, ⟨"A_1", "B_0", [("label", "1")]⟩]).edges) :=
  (spec_c8 ⟨[("A", []), ("B", [])], [⟨"A", "B", [("label", "1")]⟩]⟩ 2 (by decide)
      ⟨"A", "B", [("label", "1")]⟩ (by decide)).1
    ⟨[("A_0", []), ("B_0", []), ("A_1", []), ("B_1", [])],
     [⟨"A_0", "B_1", [("label", "1")]⟩, ⟨"A_1", "B_0", [("label", "1")]⟩]⟩
    (by decide)
